import Mathlib

/-!
Verification of the utility module of a desktop music player
(`src/core/utilities.cpp`).  Two components are modelled:

* the message-template substitution engine (`ReplaceMessage` /
  `ReplaceVariable`), and
* the recursive filesystem operations (`RemoveRecursive`,
  `MoveToTrashRecursive`, `CopyRecursive`).

Strings (`QString`) are modelled as `List Char`; the filesystem is an
explicit state record, and the recursive walks are embedded with an
explicit fuel argument (the C++ recursion consumes at least one
character / child per step, so any fuel at least the input size yields
the same result as the unbounded recursion).
-/

/-- A `QString` is modelled as a list of characters. -/
abbrev Str := List Char

/-! ## Template substitution engine -/

/-- The character class `[a-z]` of the token regex, via code points. -/
def isLower (c : Char) : Bool := 97 ≤ c.toNat && c.toNat ≤ 122

/-- Length of the maximal run of `[a-z]` characters at the front. -/
def lowerRun : Str → Nat
  | [] => 0
  | c :: cs => if isLower c then lowerRun cs + 1 else 0

/-- Leftmost match of the token regex `[%][a-z]+[%]` in a string:
returns the offset of the match start and the match length.  Since
`[a-z]` and `%` are disjoint, the regex matches at a position iff a `%`
is followed by a nonempty maximal lowercase run and then another `%`. -/
def findToken : Str → Option (Nat × Nat)
  | [] => none
  | c :: cs =>
    if c = '%' ∧ 0 < lowerRun cs ∧ (cs.drop (lowerRun cs)).head? = some '%' then
      some (0, lowerRun cs + 2)
    else
      match findToken cs with
      | some (i, l) => some (i + 1, l)
      | none => none

/-- `QString::replace(before, after)`: replace every occurrence of
`before` in the string by `after`, scanning left to right; replacement
text is not rescanned within one call.  Fuel-driven; the callers pass
the length of the scanned string, which always suffices.  The source
only calls this with `before` a token of length at least 3, so the
empty-`before` case is unreachable there. -/
def replaceAllF (before after : Str) : Nat → Str → Str
  | _, [] => []
  | 0, s => s
  | fuel + 1, c :: cs =>
    if before ≠ [] ∧ before.isPrefixOf (c :: cs) then
      after ++ replaceAllF before after fuel ((c :: cs).drop before.length)
    else
      c :: replaceAllF before after fuel cs

/-- `QString::replace(before, after)` on the whole string. -/
def replaceAll (before after s : Str) : Str := replaceAllF before after s.length s

/-- Decimal rendering of a natural number (`QString::setNum`). -/
def natDigitsAux : Nat → Nat → Str
  | 0, _ => []
  | fuel + 1, n =>
    if n < 10 then [Char.ofNat (48 + n)]
    else natDigitsAux fuel (n / 10) ++ [Char.ofNat (48 + n % 10)]

/-- Decimal rendering of a natural number. -/
def natToStr (n : Nat) : Str := natDigitsAux (n + 1) n

/-- Decimal rendering of an integer (`QString::setNum` on `int`). -/
def intToStr : Int → Str
  | Int.ofNat n => natToStr n
  | Int.negSucc m => '-' :: natToStr (m + 1)

/-- The track-metadata record (`Song`), modelled as the read-only view
the substitution engine consumes: one field per accessor the dispatch
table calls, holding exactly the string (or number) that accessor
returns. -/
structure Song where
  prettyTitle : Str
  album : Str
  artist : Str
  effectiveAlbumartist : Str
  track : Int
  disc : Int
  prettyYear : Str
  prettyOriginalYear : Str
  genre : Str
  composer : Str
  performer : Str
  grouping : Str
  prettyLength : Str
  basefilename : Str
  urlString : Str
  playcount : Nat
  skipcount : Nat
  prettyRating : Str

/-- The value a token resolves to, before HTML escaping: the chained
string-equality dispatch of `ReplaceVariable` (everything except the
`%newline%` early return).  An unknown token keeps its own text. -/
def variableValue (v : Str) (song : Song) : Str :=
  if v = "%title%".data then song.prettyTitle
  else if v = "%album%".data then song.album
  else if v = "%artist%".data then song.artist
  else if v = "%albumartist%".data then song.effectiveAlbumartist
  else if v = "%track%".data then intToStr song.track
  else if v = "%disc%".data then intToStr song.disc
  else if v = "%year%".data then song.prettyYear
  else if v = "%originalyear%".data then song.prettyOriginalYear
  else if v = "%genre%".data then song.genre
  else if v = "%composer%".data then song.composer
  else if v = "%performer%".data then song.performer
  else if v = "%grouping%".data then song.grouping
  else if v = "%length%".data then song.prettyLength
  else if v = "%filename%".data then song.basefilename
  else if v = "%url%".data then song.urlString
  else if v = "%playcount%".data then natToStr song.playcount
  else if v = "%skipcount%".data then natToStr song.skipcount
  else if v = "%rating%".data then song.prettyRating
  else v

/-- `QString::toHtmlEscaped`: replace `<`, `>`, `&`, `"` by their HTML
entities, in one left-to-right pass. -/
def toHtmlEscaped : Str → Str
  | [] => []
  | c :: cs =>
    (if c = '<' then "&lt;".data
     else if c = '>' then "&gt;".data
     else if c = '&' then "&amp;".data
     else if c = '"' then "&quot;".data
     else [c]) ++ toHtmlEscaped cs

/-- `ReplaceVariable`: resolve one matched token.  In the source the
`%newline%` branch returns the caller-supplied newline immediately,
skipping the final HTML-escaping step; all other values are escaped
when `html_escaped` is set. -/
def ReplaceVariable (v : Str) (song : Song) (newline : Str) (html_escaped : Bool) : Str :=
  if v = "%newline%".data then newline
  else if html_escaped then toHtmlEscaped (variableValue v song)
  else variableValue v song

/-- The substitution loop of `ReplaceMessage`: repeatedly find the next
token match in the original `message` (the scan position only ever
advances past each match), and for each match replace every occurrence
of the matched token text in the working copy.  Fuel-driven; each
iteration consumes at least three characters of the scanned remainder,
so fuel `message.length` suffices. -/
def substLoopF (song : Song) (newline : Str) (html_escaped : Bool) :
    Nat → Str → Str → Str
  | 0, _, copy => copy
  | fuel + 1, rest, copy =>
    match findToken rest with
    | none => copy
    | some (i, l) =>
      let token := (rest.drop i).take l
      substLoopF song newline html_escaped fuel (rest.drop (i + l))
        (replaceAll token (ReplaceVariable token song newline html_escaped) copy)

/-- First index at which the post-processing regex `" - (>|$)"`
matches: three characters `' '`, `'-'`, `' '` followed by `'>'` or by a
position where `$` matches.  `QRegularExpression` uses PCRE semantics
with neither the multiline nor the dollar-end-only option, so `$`
matches at the end of the subject and also immediately before a
newline that ends the subject. -/
def dashIndex : Str → Option Nat
  | [] => none
  | c :: cs =>
    if " - ".data.isPrefixOf (c :: cs) ∧
        ((c :: cs).drop 3 = [] ∨ ((c :: cs).drop 3).head? = some '>' ∨
          (c :: cs).drop 3 = ['\n']) then
      some 0
    else
      match dashIndex cs with
      | some i => some (i + 1)
      | none => none

/-- `QString::remove(i, n)`: drop `n` characters starting at index `i`. -/
def removeAt (s : Str) (i n : Nat) : Str := s.take i ++ s.drop (i + n)

/-- The post-processing step of `ReplaceMessage`: remove the first
occurrence of `" - "` that is followed by `>` or the end of the string
(three characters removed, a following `>` stays). -/
def stripSeparator (s : Str) : Str :=
  match dashIndex s with
  | some i => removeAt s i 3
  | none => s

/-- `ReplaceMessage`: run the substitution loop over the message, then
apply the separator-stripping post-processing step. -/
def ReplaceMessage (message : Str) (song : Song) (newline : Str) (html_escaped : Bool) : Str :=
  stripSeparator (substLoopF song newline html_escaped message.length message message)

/-- The successive token texts matched by the left-to-right,
non-overlapping scan of a string (the search resumes where the
previous match ended). -/
def tokenListF : Nat → Str → List Str
  | 0, _ => []
  | fuel + 1, rest =>
    match findToken rest with
    | none => []
    | some (i, l) => (rest.drop i).take l :: tokenListF fuel (rest.drop (i + l))

/-- Modelled from the spec sentence of claim C1 (amended): scan the
original message left to right, non-overlapping, and for each matched
token replace every occurrence of its text in the working copy. -/
def renderGlobalSpec (message : Str) (song : Song) (newline : Str) (html_escaped : Bool) : Str :=
  stripSeparator
    ((tokenListF message.length message).foldl
      (fun copy token => replaceAll token (ReplaceVariable token song newline html_escaped) copy)
      message)

/-- Modelled from the claim C1 wording as frozen: scan left to right,
non-overlapping, and splice each token's replacement into place so that
text produced by a substitution is never itself scanned or substituted
again. -/
def renderNoRescanF (song : Song) (newline : Str) (html_escaped : Bool) : Nat → Str → Str
  | 0, s => s
  | fuel + 1, s =>
    match findToken s with
    | none => s
    | some (i, l) =>
      s.take i ++ ReplaceVariable ((s.drop i).take l) song newline html_escaped ++
        renderNoRescanF song newline html_escaped fuel (s.drop (i + l))

/-- Claim C1's reading of `Render`: left-to-right splice substitution
(injected text stays literal), then the separator-stripping step. -/
def renderNoRescan (message : Str) (song : Song) (newline : Str) (html_escaped : Bool) : Str :=
  stripSeparator (renderNoRescanF song newline html_escaped message.length message)

/-- A song record with every field empty or zero, for concrete runs. -/
def emptySong : Song where
  prettyTitle := []
  album := []
  artist := []
  effectiveAlbumartist := []
  track := 0
  disc := 0
  prettyYear := []
  prettyOriginalYear := []
  genre := []
  composer := []
  performer := []
  grouping := []
  prettyLength := []
  basefilename := []
  urlString := []
  playcount := 0
  skipcount := 0
  prettyRating := []

example : ReplaceMessage "%newline%".data emptySong "<br>".data true = "<br>".data := by decide

example :
    ReplaceMessage "%title% - %artist%".data
      { emptySong with prettyTitle := "Song".data } "\n".data false = "Song".data := by decide

example :
    ReplaceMessage "<b>%artist%</b>".data
      { emptySong with artist := "A&B".data } "\n".data true = "<b>A&amp;B</b>".data := by decide

example :
    ReplaceMessage "%unknowntoken%".data emptySong "\n".data false = "%unknowntoken%".data := by
  decide

example :
    ReplaceMessage "%artist%%title%".data
      { emptySong with artist := "%title%".data, prettyTitle := "x".data } "\n".data false
      = "xx".data := by decide

example :
    renderNoRescan "%artist%%title%".data
      { emptySong with artist := "%title%".data, prettyTitle := "x".data } "\n".data false
      = "%title%x".data := by decide

/-! ## Lemmas for the template engine -/

/-- `isPrefixOf` agrees with taking the prefix of the right length. -/
lemma isPrefixOf_iff_take : ∀ (p t : Str), p.isPrefixOf t = true ↔ t.take p.length = p
  | [], t => by simp [List.isPrefixOf]
  | a :: as, [] => by simp [List.isPrefixOf]
  | a :: as, b :: bs => by
    simp only [List.isPrefixOf, Bool.and_eq_true, beq_iff_eq, List.length_cons, List.take_succ_cons,
      List.cons.injEq]
    constructor
    · rintro ⟨rfl, h⟩
      exact ⟨rfl, (isPrefixOf_iff_take as bs).1 h⟩
    · rintro ⟨rfl, h⟩
      exact ⟨rfl, (isPrefixOf_iff_take as bs).2 h⟩

/-- The substitution loop is the fold of the per-token global
replacement over the list of tokens found by the left-to-right scan. -/
lemma substLoopF_eq_foldl (song : Song) (nl : Str) (esc : Bool) :
    ∀ (fuel : Nat) (rest copy : Str),
      substLoopF song nl esc fuel rest copy =
        List.foldl
          (fun copy token => replaceAll token (ReplaceVariable token song nl esc) copy)
          copy (tokenListF fuel rest) := by
  intro fuel
  induction fuel with
  | zero => intro rest copy; rfl
  | succ n ih =>
    intro rest copy
    simp only [substLoopF, tokenListF]
    cases h : findToken rest with
    | none => rfl
    | some il =>
      obtain ⟨i, l⟩ := il
      simp only [List.foldl_cons]
      exact ih _ _

/-- The strings in the dispatch table of `ReplaceVariable`. -/
def knownTokens : List Str :=
  ["%title%".data, "%album%".data, "%artist%".data, "%albumartist%".data, "%track%".data,
   "%disc%".data, "%year%".data, "%originalyear%".data, "%genre%".data, "%composer%".data,
   "%performer%".data, "%grouping%".data, "%length%".data, "%filename%".data, "%url%".data,
   "%playcount%".data, "%skipcount%".data, "%rating%".data, "%newline%".data]

/-- Recognizer for `[a-z]*[%]` (a possibly empty lowercase run closed
by a final percent sign, which must be the last character). -/
def lowerStar : Str → Bool
  | [] => false
  | c :: cs => if c = '%' then decide (cs = []) else isLower c && lowerStar cs

/-- Recognizer for `[a-z]+[%]`. -/
def lowerPlus : Str → Bool
  | [] => false
  | c :: cs => isLower c && lowerStar cs

/-- Recognizer for the full token grammar `[%][a-z]+[%]`. -/
def isTokenText : Str → Bool
  | [] => false
  | c :: cs => decide (c = '%') && lowerPlus cs

/-- Every character of a `[a-z]*[%]` string is lowercase or `%`. -/
lemma lowerStar_chars : ∀ (s : Str), lowerStar s = true →
    ∀ c ∈ s, c = '%' ∨ isLower c = true := by
  intro s
  induction s with
  | nil => intro h; cases h
  | cons a as ih =>
    intro h c hc
    simp only [lowerStar] at h
    by_cases hp : a = '%'
    · rw [if_pos hp] at h
      rcases List.mem_cons.1 hc with rfl | hc2
      · exact Or.inl hp
      · rw [of_decide_eq_true h] at hc2
        cases hc2
    · rw [if_neg hp, Bool.and_eq_true] at h
      rcases List.mem_cons.1 hc with rfl | hc2
      · exact Or.inr h.1
      · exact ih h.2 c hc2

/-- Every character of a token is lowercase or `%`. -/
lemma isTokenText_chars (v : Str) (h : isTokenText v = true) :
    ∀ c ∈ v, c = '%' ∨ isLower c = true := by
  cases v with
  | nil => cases h
  | cons a as =>
    rw [isTokenText, Bool.and_eq_true, decide_eq_true_eq] at h
    intro x hx
    rcases List.mem_cons.1 hx with rfl | hx2
    · exact Or.inl h.1
    · have h2 := h.2
      cases as with
      | nil => cases h2
      | cons b bs =>
        rw [lowerPlus, Bool.and_eq_true] at h2
        rcases List.mem_cons.1 hx2 with rfl | hx3
        · exact Or.inr h2.1
        · exact lowerStar_chars bs h2.2 x hx3

/-- A lowercase letter is not one of the four HTML-escaped characters. -/
lemma isLower_not_special (c : Char) (h : isLower c = true) :
    c ≠ '<' ∧ c ≠ '>' ∧ c ≠ '&' ∧ c ≠ '"' := by
  refine ⟨fun hc => ?_, fun hc => ?_, fun hc => ?_, fun hc => ?_⟩ <;> subst hc <;>
    exact absurd h (by decide)

/-- HTML escaping is the identity on strings avoiding the four escaped
characters. -/
lemma toHtmlEscaped_eq_self (s : Str)
    (h : ∀ c ∈ s, c ≠ '<' ∧ c ≠ '>' ∧ c ≠ '&' ∧ c ≠ '"') : toHtmlEscaped s = s := by
  induction s with
  | nil => rfl
  | cons c cs ih =>
    obtain ⟨h1, h2, h3, h4⟩ := h c (List.mem_cons_self c cs)
    simp only [toHtmlEscaped, if_neg h1, if_neg h2, if_neg h3, if_neg h4, List.singleton_append,
      List.cons.injEq, true_and]
    exact ih fun x hx => h x (List.mem_cons_of_mem _ hx)

/-- HTML escaping fixes any string matching the token grammar. -/
lemma toHtmlEscaped_token (v : Str) (h : isTokenText v = true) : toHtmlEscaped v = v := by
  refine toHtmlEscaped_eq_self v fun c hc => ?_
  rcases isTokenText_chars v h c hc with rfl | hl
  · exact ⟨by decide, by decide, by decide, by decide⟩
  · exact isLower_not_special c hl

/-- Tokens outside the dispatch table keep their own text through the
value dispatch. -/
lemma variableValue_unknown (v : Str) (song : Song) (h : v ∉ knownTokens) :
    variableValue v song = v := by
  have hne : ∀ t ∈ knownTokens, v ≠ t := fun t ht heq => h (heq ▸ ht)
  unfold variableValue
  iterate 18 rw [if_neg (hne _ (by decide))]

/-- The property matched by the post-processing regex at index `j`:
the three characters `" - "` occur at `j` and are followed by `>`, by
the end of the string, or by a newline that ends the string (the PCRE
dollar also matches immediately before a trailing newline). -/
def dashAt (s : Str) (j : Nat) : Prop :=
  (s.drop j).take 3 = " - ".data ∧
    (s.drop (j + 3) = [] ∨ (s.drop (j + 3)).head? = some '>' ∨ s.drop (j + 3) = ['\n'])

lemma dashAt_succ (c : Char) (cs : Str) (j : Nat) : dashAt (c :: cs) (j + 1) ↔ dashAt cs j := by
  have h4 : j + 1 + 3 = (j + 3) + 1 := by omega
  simp only [dashAt, h4, List.drop_succ_cons]

lemma dashAt_zero_iff (c : Char) (cs : Str) :
    dashAt (c :: cs) 0 ↔
      (" - ".data.isPrefixOf (c :: cs) = true ∧
        ((c :: cs).drop 3 = [] ∨ ((c :: cs).drop 3).head? = some '>' ∨
          (c :: cs).drop 3 = ['\n'])) := by
  have hlen : (" - ".data).length = 3 := rfl
  simp only [dashAt, List.drop_zero, Nat.zero_add, isPrefixOf_iff_take, hlen]

lemma dashIndex_some : ∀ (s : Str) (i : Nat), dashIndex s = some i →
    dashAt s i ∧ ∀ j, j < i → ¬ dashAt s j := by
  intro s
  induction s with
  | nil => intro i h; cases h
  | cons c cs ih =>
    intro i h
    simp only [dashIndex] at h
    by_cases hc : (" - ".data.isPrefixOf (c :: cs) = true) ∧
        ((c :: cs).drop 3 = [] ∨ ((c :: cs).drop 3).head? = some '>' ∨
          (c :: cs).drop 3 = ['\n'])
    · rw [if_pos hc] at h
      cases h
      exact ⟨(dashAt_zero_iff c cs).2 hc, fun j hj => absurd hj (Nat.not_lt_zero j)⟩
    · rw [if_neg hc] at h
      cases hi : dashIndex cs with
      | none => rw [hi] at h; cases h
      | some i0 =>
        rw [hi] at h
        cases h
        obtain ⟨h1, h2⟩ := ih i0 hi
        refine ⟨(dashAt_succ c cs i0).2 h1, ?_⟩
        intro j hj
        cases j with
        | zero => exact fun hd => hc ((dashAt_zero_iff c cs).1 hd)
        | succ j0 => exact fun hd => h2 j0 (by omega) ((dashAt_succ c cs j0).1 hd)

lemma dashIndex_none : ∀ (s : Str), dashIndex s = none → ∀ j, ¬ dashAt s j := by
  intro s
  induction s with
  | nil =>
    intro _ j hd
    rw [dashAt, List.drop_nil, List.drop_nil] at hd
    exact absurd hd.1 (by decide)
  | cons c cs ih =>
    intro h j
    simp only [dashIndex] at h
    by_cases hc : (" - ".data.isPrefixOf (c :: cs) = true) ∧
        ((c :: cs).drop 3 = [] ∨ ((c :: cs).drop 3).head? = some '>' ∨
          (c :: cs).drop 3 = ['\n'])
    · rw [if_pos hc] at h; cases h
    · rw [if_neg hc] at h
      cases hi : dashIndex cs with
      | some i0 => rw [hi] at h; cases h
      | none =>
        intro hd
        cases j with
        | zero => exact hc ((dashAt_zero_iff c cs).1 hd)
        | succ j0 => exact ih hi j0 ((dashAt_succ c cs j0).1 hd)

/-! ## Claims C1 to C5 -/

/-- Claim C1, counterexample: with `artist = "%title%"` and
`title = "x"`, the message `"%artist%%title%"` renders to `"xx"` — the
`"%title%"` text injected by the first substitution is substituted
again when the scan reaches the second token, because the source
replaces every occurrence of the matched token in the working copy.
Under the claim's never-resubstituted reading the result would be
`"%title%x"`. -/
theorem claimC1_counterexample :
    ReplaceMessage "%artist%%title%".data
        { emptySong with artist := "%title%".data, prettyTitle := "x".data } "\n".data false
      = "xx".data
    ∧ renderNoRescan "%artist%%title%".data
        { emptySong with artist := "%title%".data, prettyTitle := "x".data } "\n".data false
      = "%title%x".data
    ∧ ReplaceMessage "%artist%%title%".data
        { emptySong with artist := "%title%".data, prettyTitle := "x".data } "\n".data false
      ≠ renderNoRescan "%artist%%title%".data
        { emptySong with artist := "%title%".data, prettyTitle := "x".data } "\n".data false :=
  ⟨by decide, by decide, by decide⟩

/-- Claim C1 (amended): for every message, record, newline string and
escape flag, `Render` substitutes tokens by scanning the original
message left to right, non-overlapping, resuming the search where the
previous match ended; each matched token is substituted by replacing
every occurrence of that token's literal text in the current working
string, so text injected by an earlier substitution can itself be
substituted when a later match has the same token text. -/
theorem claimC1 (message : Str) (song : Song) (newline : Str) (html_escaped : Bool) :
    ReplaceMessage message song newline html_escaped =
      renderGlobalSpec message song newline html_escaped := by
  unfold ReplaceMessage renderGlobalSpec
  rw [substLoopF_eq_foldl]

/-- Claim C2: for every metadata record and every value of the
htmlEscape flag, the `%newline%` token resolves to exactly the
caller-supplied newline string with no HTML escaping; in particular
`Render("%newline%", record, "<br>", true)` returns `"<br>"`. -/
theorem claimC2 :
    (∀ (song : Song) (newline : Str) (html_escaped : Bool),
      ReplaceVariable "%newline%".data song newline html_escaped = newline)
    ∧ ∀ song : Song,
        ReplaceMessage "%newline%".data song "<br>".data true = "<br>".data :=
  ⟨fun _ _ _ => rfl, fun _ => rfl⟩

/-- Claim C3: `Render` is a total function, and every token of the form
`%[a-z]+%` whose name is not in the dispatch table resolves to its own
literal token text unchanged; in particular
`Render("%unknowntoken%", record, "\n", false)` returns
`"%unknowntoken%"`. -/
theorem claimC3 :
    (∀ (v : Str) (song : Song) (newline : Str) (html_escaped : Bool),
      isTokenText v = true → v ∉ knownTokens →
        ReplaceVariable v song newline html_escaped = v)
    ∧ ∀ song : Song,
        ReplaceMessage "%unknowntoken%".data song "\n".data false = "%unknowntoken%".data := by
  constructor
  · intro v song newline html_escaped htok hunk
    have hnl : v ≠ "%newline%".data := fun heq => hunk (heq ▸ by decide)
    have hval : variableValue v song = v := variableValue_unknown v song hunk
    rw [ReplaceVariable, if_neg hnl]
    cases html_escaped with
    | false => simpa using hval
    | true => simpa [hval] using toHtmlEscaped_token v htok
  · intro song
    rfl

/-- Witness for claim C3 at the concrete unknown token `%zebra%`. -/
theorem claimC3_witness :
    ReplaceVariable "%zebra%".data emptySong "\n".data true = "%zebra%".data :=
  claimC3.1 "%zebra%".data emptySong "\n".data true (by decide) (by decide)

/-- Modelled from the claim C4 wording as frozen: the first index of
`" - "` followed by `'>'` or the absolute end of the string only,
without the trailing-newline case of the PCRE dollar. -/
def dashIndexSpec : Str → Option Nat
  | [] => none
  | c :: cs =>
    if " - ".data.isPrefixOf (c :: cs) ∧
        ((c :: cs).drop 3 = [] ∨ ((c :: cs).drop 3).head? = some '>') then
      some 0
    else
      match dashIndexSpec cs with
      | some i => some (i + 1)
      | none => none

/-- Claim C4's reading of the post-processing step: remove the first
occurrence of `" - "` followed by `'>'` or end-of-string only. -/
def stripSeparatorSpec (s : Str) : Str :=
  match dashIndexSpec s with
  | some i => removeAt s i 3
  | none => s

/-- Claim C4, counterexample: on the message `"x - \n"` (no tokens, so
substitution leaves it unchanged) the program's regex `" - (>|$)"`
matches before the trailing newline — the PCRE dollar — and the
separator is stripped, so `Render` returns `"x\n"`; under the claim's
rule, `" - "` followed by `'>'` or end-of-string only, no occurrence
exists and the text would stay `"x - \n"`. -/
theorem claimC4_counterexample :
    ReplaceMessage "x - \n".data emptySong "\n".data false = "x\n".data
    ∧ stripSeparatorSpec "x - \n".data = "x - \n".data
    ∧ ReplaceMessage "x - \n".data emptySong "\n".data false ≠ "x - \n".data :=
  ⟨by decide, by decide, by decide⟩

/-- Claim C4 (amended): after all substitutions, `Render` removes
exactly the first occurrence (never more than one) of `" - "` followed
by `>`, by the end of the string, or by a newline that ends the string
(the regex dollar also matches immediately before a trailing newline),
leaving a following `>` in place; in particular
`Render("%title% - %artist%", record, "\n", false)` with
`title = "Song"` and `artist = ""` returns `"Song"`. -/
theorem claimC4 :
    (∀ (s : Str) (i : Nat), dashIndex s = some i →
      dashAt s i ∧ (∀ j, j < i → ¬ dashAt s j) ∧
        stripSeparator s = s.take i ++ s.drop (i + 3))
    ∧ (∀ s : Str, dashIndex s = none → (∀ j, ¬ dashAt s j) ∧ stripSeparator s = s)
    ∧ ReplaceMessage "%title% - %artist%".data
        { emptySong with prettyTitle := "Song".data } "\n".data false = "Song".data := by
  refine ⟨?_, ?_, by decide⟩
  · intro s i h
    obtain ⟨h1, h2⟩ := dashIndex_some s i h
    exact ⟨h1, h2, by simp [stripSeparator, h, removeAt]⟩
  · intro s h
    exact ⟨dashIndex_none s h, by simp [stripSeparator, h]⟩

/-- Witness for claim C4 at the concrete string `"a - >b"`, whose
first (and only) separator occurrence is at index 1. -/
theorem claimC4_witness :
    dashAt "a - >b".data 1 ∧ (∀ j, j < 1 → ¬ dashAt "a - >b".data j) ∧
      stripSeparator "a - >b".data = "a - >b".data.take 1 ++ "a - >b".data.drop 4 :=
  claimC4.1 "a - >b".data 1 (by decide)

/-- Claim C5: when the htmlEscape flag is true, every resolved token
value except `%newline%` is HTML-escaped (escaping `&`, `<`, `>`, `"`);
in particular `Render("<b>%artist%</b>", record, "\n", true)` with
`artist = "A&B"` returns `"<b>A&amp;B</b>"` — literal text outside
tokens is not escaped. -/
theorem claimC5 :
    (∀ (v : Str) (song : Song) (newline : Str), v ≠ "%newline%".data →
      ReplaceVariable v song newline true = toHtmlEscaped (ReplaceVariable v song newline false))
    ∧ ReplaceMessage "<b>%artist%</b>".data
        { emptySong with artist := "A&B".data } "\n".data true = "<b>A&amp;B</b>".data := by
  refine ⟨?_, by decide⟩
  intro v song newline h
  rw [ReplaceVariable, ReplaceVariable, if_neg h, if_neg h]
  rfl

/-- Witness for claim C5 at the concrete token `%artist%`. -/
theorem claimC5_witness :
    ReplaceVariable "%artist%".data emptySong "\n".data true =
      toHtmlEscaped (ReplaceVariable "%artist%".data emptySong "\n".data false) :=
  claimC5.1 "%artist%".data emptySong "\n".data (by decide)

/-! ## Recursive filesystem operations

The filesystem is an explicit state: the sets of existing directory
and file paths, a hidden attribute per path (what the enumeration's
`QDir::Hidden` flag controls), a locked attribute per path (paths on
which primitive operations fail, modelling permission errors), and the
list of trashed files.  Paths are joined exactly as the source does,
`path + "/" + child`.  Each run also yields the list of primitive
operations attempted, in order, so that statements about traversal
order and short-circuiting can be made. -/

/-- `path + "/" + child`, the path concatenation used by the source. -/
def pjoin (p c : Str) : Str := p ++ '/' :: c

/-- `remainderAfter pre q` returns `r` when `q = pre ++ r`. -/
def remainderAfter : Str → Str → Option Str
  | [], q => some q
  | _ :: _, [] => none
  | a :: as, b :: bs => if a = b then remainderAfter as bs else none

/-- The child name `c` such that `q = p + "/" + c`, when `c` is a
plain entry name (nonempty, without a separator). -/
def childName (p q : Str) : Option Str :=
  match remainderAfter (p ++ ['/']) q with
  | some c => if c ≠ [] ∧ '/' ∉ c then some c else none
  | none => none

/-- The filesystem state. -/
structure FS where
  dirs : List Str
  files : List Str
  hiddenAttr : Str → Bool
  locked : Str → Bool
  trashed : List Str

/-- `QDir::entryList(NoDotAndDotDot | Dirs [| Hidden])`: names of the
immediate child directories of `p`, including hidden ones exactly when
`includeHidden` is set. -/
def childDirs (fs : FS) (includeHidden : Bool) (p : Str) : List Str :=
  fs.dirs.filterMap fun q =>
    if includeHidden = true ∨ fs.hiddenAttr q = false then childName p q else none

/-- `QDir::entryList(NoDotAndDotDot | Files [| Hidden])`: names of the
immediate child files of `p`, including hidden ones exactly when
`includeHidden` is set. -/
def childFiles (fs : FS) (includeHidden : Bool) (p : Str) : List Str :=
  fs.files.filterMap fun q =>
    if includeHidden = true ∨ fs.hiddenAttr q = false then childName p q else none

/-- `QFile::remove`: delete a file; fails on a missing or locked path. -/
def qfileRemove (fs : FS) (p : Str) : FS × Bool :=
  if p ∈ fs.files ∧ fs.locked p = false then
    ({ fs with files := fs.files.filter fun q => decide (q ≠ p) }, true)
  else (fs, false)

/-- `QFile::moveToTrash`: move a file to the trash; fails on a missing
or locked path. -/
def qfileMoveToTrash (fs : FS) (p : Str) : FS × Bool :=
  if p ∈ fs.files ∧ fs.locked p = false then
    ({ fs with files := fs.files.filter fun q => decide (q ≠ p), trashed := p :: fs.trashed },
      true)
  else (fs, false)

/-- `QDir::rmdir`: remove a directory; succeeds only when it exists,
has no entries at all (hidden included), and is not locked. -/
def qdirRmdir (fs : FS) (p : Str) : FS × Bool :=
  if p ∈ fs.dirs ∧ childDirs fs true p = [] ∧ childFiles fs true p = [] ∧ fs.locked p = false
  then ({ fs with dirs := fs.dirs.filter fun q => decide (q ≠ p) }, true)
  else (fs, false)

/-- The proper prefixes of a path that end just before a separator
(the parent chain `QDir::mkpath` creates). -/
def slashParents (p : Str) : List Str :=
  (List.range p.length).filterMap fun i =>
    if p.get? i = some '/' then some (p.take i) else none

/-- `QDir::mkpath`: create a directory and its missing parents.  The
source ignores its return value, so it is modelled as a plain state
change. -/
def qdirMkpath (fs : FS) (p : Str) : FS :=
  { fs with dirs := ((slashParents p ++ [p]).filter fun q => decide (q ∉ fs.dirs)) ++ fs.dirs }

/-- `QFile::copy`: copy a file; fails when the source is missing or
locked, or the destination already exists or is locked. -/
def qfileCopy (fs : FS) (src dst : Str) : FS × Bool :=
  if src ∈ fs.files ∧ fs.locked src = false ∧ dst ∉ fs.files ∧ fs.locked dst = false then
    ({ fs with files := dst :: fs.files }, true)
  else (fs, false)

/-- A primitive filesystem operation attempted during a recursive walk. -/
inductive FSEvent where
  | removeFile (p : Str)
  | trashFile (p : Str)
  | rmdir (p : Str)
  | mkpath (p : Str)
  | copyFile (src dst : Str)
  deriving DecidableEq

/-- The path an event concerns (for a copy, its source path). -/
def eventPath : FSEvent → Str
  | FSEvent.removeFile p => p
  | FSEvent.trashFile p => p
  | FSEvent.rmdir p => p
  | FSEvent.mkpath p => p
  | FSEvent.copyFile src _ => src

/-- `q` lies strictly below `p` in the path tree. -/
def underPath (p q : Str) : Prop := ∃ r, q = p ++ '/' :: r

/-- The file loop of `RemoveRecursive`: `QFile::remove` on each listed
path in order, returning `false` at the first failure without touching
the remaining entries. -/
def removeFilesList : FS → List Str → FS × Bool × List FSEvent
  | fs, [] => (fs, true, [])
  | fs, p :: ps =>
    let r1 := qfileRemove fs p
    if r1.2 = false then (r1.1, false, [FSEvent.removeFile p])
    else
      let r2 := removeFilesList r1.1 ps
      (r2.1, r2.2.1, FSEvent.removeFile p :: r2.2.2)

/-- The file loop of `MoveToTrashRecursive`: `QFile::moveToTrash` on
each listed path in order, stopping at the first failure. -/
def trashFilesList : FS → List Str → FS × Bool × List FSEvent
  | fs, [] => (fs, true, [])
  | fs, p :: ps =>
    let r1 := qfileMoveToTrash fs p
    if r1.2 = false then (r1.1, false, [FSEvent.trashFile p])
    else
      let r2 := trashFilesList r1.1 ps
      (r2.1, r2.2.1, FSEvent.trashFile p :: r2.2.2)

/-- The file loop of `CopyRecursive`: `QFile::copy` of each child name
from `source` into `dest_path`, stopping at the first failure. -/
def copyFilesList (dest_path source : Str) : FS → List Str → FS × Bool × List FSEvent
  | fs, [] => (fs, true, [])
  | fs, c :: cs =>
    let r1 := qfileCopy fs (pjoin source c) (pjoin dest_path c)
    if r1.2 = false then (r1.1, false, [FSEvent.copyFile (pjoin source c) (pjoin dest_path c)])
    else
      let r2 := copyFilesList dest_path source r1.1 cs
      (r2.1, r2.2.1, FSEvent.copyFile (pjoin source c) (pjoin dest_path c) :: r2.2.2)

/-- `RemoveRecursive` over a worklist of tree roots.  For each root:
recurse into every child directory (hidden included) first, then
remove every child file (hidden included), then `rmdir` the directory
itself; the first failure anywhere aborts the whole run.  Fuel-driven;
each recursive call strictly decreases the fuel, and any fuel larger
than the tree depth yields the behavior of the C++ recursion. -/
def removeTrees : Nat → FS → List Str → FS × Bool × List FSEvent
  | _, fs, [] => (fs, true, [])
  | 0, fs, _ :: _ => (fs, false, [])
  | fuel + 1, fs, path :: rest =>
    let rd := removeTrees fuel fs ((childDirs fs true path).map (pjoin path))
    if rd.2.1 = false then (rd.1, false, rd.2.2)
    else
      let rf := removeFilesList rd.1 ((childFiles rd.1 true path).map (pjoin path))
      if rf.2.1 = false then (rf.1, false, rd.2.2 ++ rf.2.2)
      else
        let rr := qdirRmdir rf.1 path
        if rr.2 = false then (rr.1, false, rd.2.2 ++ rf.2.2 ++ [FSEvent.rmdir path])
        else
          let rn := removeTrees fuel rr.1 rest
          (rn.1, rn.2.1, rd.2.2 ++ rf.2.2 ++ [FSEvent.rmdir path] ++ rn.2.2)

/-- `MoveToTrashRecursive` over a worklist of tree roots: the same
walk as `removeTrees`, with files routed through `QFile::moveToTrash`
and the emptied directory still removed with `rmdir`. -/
def trashTrees : Nat → FS → List Str → FS × Bool × List FSEvent
  | _, fs, [] => (fs, true, [])
  | 0, fs, _ :: _ => (fs, false, [])
  | fuel + 1, fs, path :: rest =>
    let rd := trashTrees fuel fs ((childDirs fs true path).map (pjoin path))
    if rd.2.1 = false then (rd.1, false, rd.2.2)
    else
      let rf := trashFilesList rd.1 ((childFiles rd.1 true path).map (pjoin path))
      if rf.2.1 = false then (rf.1, false, rd.2.2 ++ rf.2.2)
      else
        let rr := qdirRmdir rf.1 path
        if rr.2 = false then (rr.1, false, rd.2.2 ++ rf.2.2 ++ [FSEvent.rmdir path])
        else
          let rn := trashTrees fuel rr.1 rest
          (rn.1, rn.2.1, rd.2.2 ++ rf.2.2 ++ [FSEvent.rmdir path] ++ rn.2.2)

/-- `s.section('/', -1, -1)`: the text after the last separator (the
whole string when there is none). -/
def lastSection (s : Str) : Str := (s.reverse.takeWhile fun c => decide (c ≠ '/')).reverse

/-- `CopyRecursive` over a worklist of `(source, destination)` pairs.
For each pair: `mkpath` the destination directory
`destination + "/" + lastSection source`, recurse into every
non-hidden child directory, then copy every non-hidden child file;
the first failure aborts the whole run. -/
def copyTrees : Nat → FS → List (Str × Str) → FS × Bool × List FSEvent
  | _, fs, [] => (fs, true, [])
  | 0, fs, _ :: _ => (fs, false, [])
  | fuel + 1, fs, (source, destination) :: rest =>
    let dest_path := pjoin destination (lastSection source)
    let fs0 := qdirMkpath fs dest_path
    let rd := copyTrees fuel fs0
      ((childDirs fs0 false source).map fun c => (pjoin source c, dest_path))
    if rd.2.1 = false then (rd.1, false, FSEvent.mkpath dest_path :: rd.2.2)
    else
      let rf := copyFilesList dest_path source rd.1 (childFiles rd.1 false source)
      if rf.2.1 = false then (rf.1, false, FSEvent.mkpath dest_path :: (rd.2.2 ++ rf.2.2))
      else
        let rn := copyTrees fuel rf.1 rest
        (rn.1, rn.2.1, FSEvent.mkpath dest_path :: (rd.2.2 ++ rf.2.2 ++ rn.2.2))

/-- `RemoveRecursive(path)`. -/
def RemoveRecursive (fuel : Nat) (fs : FS) (path : Str) : FS × Bool × List FSEvent :=
  removeTrees fuel fs [path]

/-- `MoveToTrashRecursive(path)`.  The `trashAvailable` flag models the
compile-time toolkit-version switch in the source: when the move-to-
trash capability is absent the function returns `false` outright. -/
def MoveToTrashRecursive (trashAvailable : Bool) (fuel : Nat) (fs : FS) (path : Str) :
    FS × Bool × List FSEvent :=
  if trashAvailable then trashTrees fuel fs [path] else (fs, false, [])

/-- `CopyRecursive(source, destination)`. -/
def CopyRecursive (fuel : Nat) (fs : FS) (source destination : Str) :
    FS × Bool × List FSEvent :=
  copyTrees fuel fs [(source, destination)]

/-- A one-directory filesystem with a single hidden child file. -/
def fsHidden : FS where
  dirs := ["/d".data]
  files := ["/d/.h".data]
  hiddenAttr := fun q => decide (q = "/d/.h".data)
  locked := fun _ => false
  trashed := []

example : (RemoveRecursive 2 fsHidden "/d".data).2.1 = true := by decide

example : (RemoveRecursive 2 fsHidden "/d".data).1.files = [] := by decide

example :
    (RemoveRecursive 2 fsHidden "/d".data).2.2 =
      [FSEvent.removeFile "/d/.h".data, FSEvent.rmdir "/d".data] := by decide

example : (CopyRecursive 2 fsHidden "/d".data "/dst".data).2.1 = true := by decide

example : (CopyRecursive 2 fsHidden "/d".data "/dst".data).1.files = ["/d/.h".data] := by decide

/-! ## Path and enumeration lemmas -/

lemma pjoin_eq_append (p c : Str) : pjoin p c = (p ++ ['/']) ++ c := by
  simp [pjoin, List.append_assoc]

lemma remainderAfter_some : ∀ (a q r : Str), remainderAfter a q = some r ↔ q = a ++ r := by
  intro a
  induction a with
  | nil => intro q r; simp [remainderAfter]
  | cons x xs ih =>
    intro q r
    cases q with
    | nil => simp [remainderAfter]
    | cons y ys =>
      simp only [remainderAfter, List.cons_append, List.cons.injEq]
      by_cases hxy : x = y
      · subst hxy; simp [ih]
      · rw [if_neg hxy]
        constructor
        · intro h; cases h
        · intro h; exact absurd h.1.symm hxy

lemma childName_eq_some (p q c : Str) :
    childName p q = some c ↔ q = pjoin p c ∧ c ≠ [] ∧ '/' ∉ c := by
  unfold childName
  constructor
  · intro h
    cases hr : remainderAfter (p ++ ['/']) q with
    | none => rw [hr] at h; cases h
    | some r =>
      rw [hr] at h
      dsimp only at h
      by_cases hc : r ≠ [] ∧ '/' ∉ r
      · rw [if_pos hc] at h
        cases h
        exact ⟨by rw [pjoin_eq_append]; exact (remainderAfter_some _ _ _).1 hr, hc⟩
      · rw [if_neg hc] at h; cases h
  · rintro ⟨rfl, hc⟩
    have hr : remainderAfter (p ++ ['/']) (pjoin p c) = some c :=
      (remainderAfter_some _ _ _).2 (pjoin_eq_append p c)
    rw [hr]
    dsimp only
    rw [if_pos hc]

lemma pjoin_inj (p a b : Str) (h : pjoin p a = pjoin p b) : a = b := by
  unfold pjoin at h
  have h2 := List.append_cancel_left h
  injection h2

lemma underPath_pjoin (p c : Str) : underPath p (pjoin p c) := ⟨c, rfl⟩

lemma underPath_trans_pjoin (p c q : Str) (h : underPath (pjoin p c) q) : underPath p q := by
  obtain ⟨r, rfl⟩ := h
  exact ⟨c ++ '/' :: r, by simp [pjoin, List.append_assoc]⟩

lemma not_underPath_pjoin_sibling (p d c : Str) (hc : '/' ∉ c)
    (h : underPath (pjoin p d) (pjoin p c)) : False := by
  obtain ⟨r, hr⟩ := h
  rw [pjoin, pjoin, List.append_assoc] at hr
  have h2 := List.append_cancel_left hr
  injection h2 with h3 h4
  rw [h4] at hc
  exact hc (List.mem_append_right d (List.mem_cons_self '/' r))

lemma underPath_length (p q : Str) (h : underPath p q) : p.length < q.length := by
  obtain ⟨r, rfl⟩ := h
  simp [List.length_append]

lemma underPath_ne (p q : Str) (h : underPath p q) : q ≠ p :=
  fun he => absurd (he ▸ underPath_length p q h) (by simp)

lemma mem_childDirs (fs : FS) (inc : Bool) (p c : Str) :
    c ∈ childDirs fs inc p ↔
      pjoin p c ∈ fs.dirs ∧ (inc = true ∨ fs.hiddenAttr (pjoin p c) = false) ∧
        c ≠ [] ∧ '/' ∉ c := by
  unfold childDirs
  rw [List.mem_filterMap]
  constructor
  · rintro ⟨q, hq, hf⟩
    by_cases hcond : inc = true ∨ fs.hiddenAttr q = false
    · rw [if_pos hcond] at hf
      obtain ⟨hq2, hetc⟩ := (childName_eq_some p q c).1 hf
      subst hq2
      exact ⟨hq, hcond, hetc⟩
    · rw [if_neg hcond] at hf; cases hf
  · rintro ⟨hmem, hcond, hc⟩
    exact ⟨pjoin p c, hmem, by rw [if_pos hcond]; exact (childName_eq_some _ _ _).2 ⟨rfl, hc⟩⟩

lemma mem_childFiles (fs : FS) (inc : Bool) (p c : Str) :
    c ∈ childFiles fs inc p ↔
      pjoin p c ∈ fs.files ∧ (inc = true ∨ fs.hiddenAttr (pjoin p c) = false) ∧
        c ≠ [] ∧ '/' ∉ c := by
  unfold childFiles
  rw [List.mem_filterMap]
  constructor
  · rintro ⟨q, hq, hf⟩
    by_cases hcond : inc = true ∨ fs.hiddenAttr q = false
    · rw [if_pos hcond] at hf
      obtain ⟨hq2, hetc⟩ := (childName_eq_some p q c).1 hf
      subst hq2
      exact ⟨hq, hcond, hetc⟩
    · rw [if_neg hcond] at hf; cases hf
  · rintro ⟨hmem, hcond, hc⟩
    exact ⟨pjoin p c, hmem, by rw [if_pos hcond]; exact (childName_eq_some _ _ _).2 ⟨rfl, hc⟩⟩

/-- The enumeration lists only depend on the `files`, `dirs` and
`hiddenAttr` fields. -/
lemma childFiles_update_dirs (fs : FS) (X : List Str) (inc : Bool) (p : Str) :
    childFiles { fs with dirs := X } inc p = childFiles fs inc p := rfl

lemma childDirs_update_files (fs : FS) (X : List Str) (Y : List Str) (inc : Bool) (p : Str) :
    childDirs { fs with files := X, trashed := Y } inc p = childDirs fs inc p := rfl

/-! ## Primitive operation lemmas -/

lemma qfileRemove_state (fs : FS) (p : Str) :
    (qfileRemove fs p).1.dirs = fs.dirs ∧ (qfileRemove fs p).1.hiddenAttr = fs.hiddenAttr ∧
    (qfileRemove fs p).1.locked = fs.locked ∧ (qfileRemove fs p).1.files ⊆ fs.files := by
  unfold qfileRemove
  split <;> simp [List.filter_subset]

lemma qfileRemove_removed (fs : FS) (p q : Str) (hq : q ∈ fs.files)
    (h : q ∉ (qfileRemove fs p).1.files) : q = p := by
  unfold qfileRemove at h
  split at h
  · by_contra hne
    exact h (List.mem_filter.2 ⟨hq, decide_eq_true hne⟩)
  · exact absurd hq h

lemma qfileMoveToTrash_state (fs : FS) (p : Str) :
    (qfileMoveToTrash fs p).1.dirs = fs.dirs ∧
    (qfileMoveToTrash fs p).1.hiddenAttr = fs.hiddenAttr ∧
    (qfileMoveToTrash fs p).1.locked = fs.locked ∧
    (qfileMoveToTrash fs p).1.files ⊆ fs.files := by
  unfold qfileMoveToTrash
  split <;> simp [List.filter_subset]

lemma qfileMoveToTrash_removed (fs : FS) (p q : Str) (hq : q ∈ fs.files)
    (h : q ∉ (qfileMoveToTrash fs p).1.files) : q = p := by
  unfold qfileMoveToTrash at h
  split at h
  · by_contra hne
    exact h (List.mem_filter.2 ⟨hq, decide_eq_true hne⟩)
  · exact absurd hq h

lemma qdirRmdir_state (fs : FS) (p : Str) :
    (qdirRmdir fs p).1.files = fs.files ∧ (qdirRmdir fs p).1.hiddenAttr = fs.hiddenAttr ∧
    (qdirRmdir fs p).1.locked = fs.locked ∧ (qdirRmdir fs p).1.dirs ⊆ fs.dirs := by
  unfold qdirRmdir
  split <;> simp [List.filter_subset]

lemma qdirRmdir_succ (fs : FS) (p : Str) (h : (qdirRmdir fs p).2 = true) :
    p ∈ fs.dirs ∧ childDirs fs true p = [] ∧ childFiles fs true p = [] ∧
      (qdirRmdir fs p).1.dirs = fs.dirs.filter (fun q => decide (q ≠ p)) := by
  unfold qdirRmdir at h ⊢
  split at h
  next hcond => exact ⟨hcond.1, hcond.2.1, hcond.2.2.1, by rw [if_pos hcond]⟩
  next hcond => cases h

lemma qdirMkpath_state (fs : FS) (p : Str) :
    (qdirMkpath fs p).files = fs.files ∧ (qdirMkpath fs p).hiddenAttr = fs.hiddenAttr ∧
    (qdirMkpath fs p).locked = fs.locked ∧ fs.dirs ⊆ (qdirMkpath fs p).dirs := by
  unfold qdirMkpath
  exact ⟨rfl, rfl, rfl, List.subset_append_right _ _⟩

lemma qfileCopy_state (fs : FS) (src dst : Str) :
    (qfileCopy fs src dst).1.dirs = fs.dirs ∧
    (qfileCopy fs src dst).1.hiddenAttr = fs.hiddenAttr ∧
    (qfileCopy fs src dst).1.locked = fs.locked ∧
    fs.files ⊆ (qfileCopy fs src dst).1.files := by
  unfold qfileCopy
  split
  · exact ⟨rfl, rfl, rfl, List.subset_cons_self _ _⟩
  · exact ⟨rfl, rfl, rfl, fun x hx => hx⟩

lemma qfileCopy_new (fs : FS) (src dst q : Str) (h : q ∈ (qfileCopy fs src dst).1.files) :
    q ∈ fs.files ∨ q = dst := by
  unfold qfileCopy at h
  split at h
  · rcases List.mem_cons.1 h with h1 | h2
    · exact Or.inr h1
    · exact Or.inl h2
  · exact Or.inl h

/-! ## File-loop lemmas -/

lemma removeFilesList_state : ∀ (ps : List Str) (fs : FS),
    (removeFilesList fs ps).1.dirs = fs.dirs ∧
    (removeFilesList fs ps).1.hiddenAttr = fs.hiddenAttr ∧
    (removeFilesList fs ps).1.locked = fs.locked ∧
    (removeFilesList fs ps).1.files ⊆ fs.files := by
  intro ps
  induction ps with
  | nil => intro fs; exact ⟨rfl, rfl, rfl, fun x hx => hx⟩
  | cons p ps ih =>
    intro fs
    obtain ⟨hd1, hh1, hl1, hf1⟩ := qfileRemove_state fs p
    simp only [removeFilesList]
    by_cases h1 : (qfileRemove fs p).2 = false
    · rw [if_pos h1]
      exact ⟨hd1, hh1, hl1, hf1⟩
    · rw [if_neg h1]
      obtain ⟨hd2, hh2, hl2, hf2⟩ := ih (qfileRemove fs p).1
      exact ⟨hd2.trans hd1, hh2.trans hh1, hl2.trans hl1, hf2.trans hf1⟩

lemma removeFilesList_events : ∀ (ps : List Str) (fs : FS) (e : FSEvent),
    e ∈ (removeFilesList fs ps).2.2 → ∃ p ∈ ps, e = FSEvent.removeFile p := by
  intro ps
  induction ps with
  | nil => intro fs e h; cases h
  | cons p ps ih =>
    intro fs e h
    simp only [removeFilesList] at h
    by_cases h1 : (qfileRemove fs p).2 = false
    · rw [if_pos h1] at h
      rcases List.mem_singleton.1 h with rfl
      exact ⟨p, List.mem_cons_self p ps, rfl⟩
    · rw [if_neg h1] at h
      rcases List.mem_cons.1 h with rfl | h2
      · exact ⟨p, List.mem_cons_self p ps, rfl⟩
      · obtain ⟨x, hx, he⟩ := ih _ e h2
        exact ⟨x, List.mem_cons_of_mem _ hx, he⟩

lemma removeFilesList_succ_trace : ∀ (ps : List Str) (fs : FS),
    (removeFilesList fs ps).2.1 = true →
    (removeFilesList fs ps).2.2 = ps.map FSEvent.removeFile := by
  intro ps
  induction ps with
  | nil => intro fs _; rfl
  | cons p ps ih =>
    intro fs h
    simp only [removeFilesList] at h ⊢
    by_cases h1 : (qfileRemove fs p).2 = false
    · rw [if_pos h1] at h
      cases h
    · rw [if_neg h1] at h ⊢
      rw [List.map_cons, ih _ h]

lemma removeFilesList_fail_trace : ∀ (ps : List Str) (fs : FS),
    (removeFilesList fs ps).2.1 = false →
    ∃ pre c post, ps = pre ++ c :: post ∧
      (removeFilesList fs ps).2.2 = (pre ++ [c]).map FSEvent.removeFile := by
  intro ps
  induction ps with
  | nil => intro fs h; cases h
  | cons p ps ih =>
    intro fs h
    simp only [removeFilesList] at h ⊢
    by_cases h1 : (qfileRemove fs p).2 = false
    · rw [if_pos h1]
      exact ⟨[], p, ps, rfl, by simp⟩
    · rw [if_neg h1] at h ⊢
      obtain ⟨pre, c, post, hps, htr⟩ := ih _ h
      refine ⟨p :: pre, c, post, by rw [hps]; rfl, ?_⟩
      simp only [List.cons_append, List.map_cons, List.cons.injEq, true_and]
      exact htr

lemma removeFilesList_removed : ∀ (ps : List Str) (fs : FS) (q : Str),
    q ∈ fs.files → q ∉ (removeFilesList fs ps).1.files →
    FSEvent.removeFile q ∈ (removeFilesList fs ps).2.2 := by
  intro ps
  induction ps with
  | nil => intro fs q hq h; exact absurd hq h
  | cons p ps ih =>
    intro fs q hq h
    simp only [removeFilesList] at h ⊢
    by_cases h1 : (qfileRemove fs p).2 = false
    · rw [if_pos h1] at h ⊢
      rw [qfileRemove_removed fs p q hq h]
      exact List.mem_singleton.2 rfl
    · rw [if_neg h1] at h ⊢
      by_cases h2 : q ∈ (qfileRemove fs p).1.files
      · exact List.mem_cons_of_mem _ (ih _ q h2 h)
      · rw [qfileRemove_removed fs p q hq h2]
        exact List.mem_cons_self _ _

lemma trashFilesList_state : ∀ (ps : List Str) (fs : FS),
    (trashFilesList fs ps).1.dirs = fs.dirs ∧
    (trashFilesList fs ps).1.hiddenAttr = fs.hiddenAttr ∧
    (trashFilesList fs ps).1.locked = fs.locked ∧
    (trashFilesList fs ps).1.files ⊆ fs.files := by
  intro ps
  induction ps with
  | nil => intro fs; exact ⟨rfl, rfl, rfl, fun x hx => hx⟩
  | cons p ps ih =>
    intro fs
    obtain ⟨hd1, hh1, hl1, hf1⟩ := qfileMoveToTrash_state fs p
    simp only [trashFilesList]
    by_cases h1 : (qfileMoveToTrash fs p).2 = false
    · rw [if_pos h1]
      exact ⟨hd1, hh1, hl1, hf1⟩
    · rw [if_neg h1]
      obtain ⟨hd2, hh2, hl2, hf2⟩ := ih (qfileMoveToTrash fs p).1
      exact ⟨hd2.trans hd1, hh2.trans hh1, hl2.trans hl1, hf2.trans hf1⟩

lemma trashFilesList_events : ∀ (ps : List Str) (fs : FS) (e : FSEvent),
    e ∈ (trashFilesList fs ps).2.2 → ∃ p ∈ ps, e = FSEvent.trashFile p := by
  intro ps
  induction ps with
  | nil => intro fs e h; cases h
  | cons p ps ih =>
    intro fs e h
    simp only [trashFilesList] at h
    by_cases h1 : (qfileMoveToTrash fs p).2 = false
    · rw [if_pos h1] at h
      rcases List.mem_singleton.1 h with rfl
      exact ⟨p, List.mem_cons_self p ps, rfl⟩
    · rw [if_neg h1] at h
      rcases List.mem_cons.1 h with rfl | h2
      · exact ⟨p, List.mem_cons_self p ps, rfl⟩
      · obtain ⟨x, hx, he⟩ := ih _ e h2
        exact ⟨x, List.mem_cons_of_mem _ hx, he⟩

lemma trashFilesList_succ_trace : ∀ (ps : List Str) (fs : FS),
    (trashFilesList fs ps).2.1 = true →
    (trashFilesList fs ps).2.2 = ps.map FSEvent.trashFile := by
  intro ps
  induction ps with
  | nil => intro fs _; rfl
  | cons p ps ih =>
    intro fs h
    simp only [trashFilesList] at h ⊢
    by_cases h1 : (qfileMoveToTrash fs p).2 = false
    · rw [if_pos h1] at h
      cases h
    · rw [if_neg h1] at h ⊢
      rw [List.map_cons, ih _ h]

lemma trashFilesList_fail_trace : ∀ (ps : List Str) (fs : FS),
    (trashFilesList fs ps).2.1 = false →
    ∃ pre c post, ps = pre ++ c :: post ∧
      (trashFilesList fs ps).2.2 = (pre ++ [c]).map FSEvent.trashFile := by
  intro ps
  induction ps with
  | nil => intro fs h; cases h
  | cons p ps ih =>
    intro fs h
    simp only [trashFilesList] at h ⊢
    by_cases h1 : (qfileMoveToTrash fs p).2 = false
    · rw [if_pos h1]
      exact ⟨[], p, ps, rfl, by simp⟩
    · rw [if_neg h1] at h ⊢
      obtain ⟨pre, c, post, hps, htr⟩ := ih _ h
      refine ⟨p :: pre, c, post, by rw [hps]; rfl, ?_⟩
      simp only [List.cons_append, List.map_cons, List.cons.injEq, true_and]
      exact htr

lemma trashFilesList_removed : ∀ (ps : List Str) (fs : FS) (q : Str),
    q ∈ fs.files → q ∉ (trashFilesList fs ps).1.files →
    FSEvent.trashFile q ∈ (trashFilesList fs ps).2.2 := by
  intro ps
  induction ps with
  | nil => intro fs q hq h; exact absurd hq h
  | cons p ps ih =>
    intro fs q hq h
    simp only [trashFilesList] at h ⊢
    by_cases h1 : (qfileMoveToTrash fs p).2 = false
    · rw [if_pos h1] at h ⊢
      rw [qfileMoveToTrash_removed fs p q hq h]
      exact List.mem_singleton.2 rfl
    · rw [if_neg h1] at h ⊢
      by_cases h2 : q ∈ (qfileMoveToTrash fs p).1.files
      · exact List.mem_cons_of_mem _ (ih _ q h2 h)
      · rw [qfileMoveToTrash_removed fs p q hq h2]
        exact List.mem_cons_self _ _

lemma copyFilesList_state : ∀ (cs : List Str) (dest_path source : Str) (fs : FS),
    (copyFilesList dest_path source fs cs).1.dirs = fs.dirs ∧
    (copyFilesList dest_path source fs cs).1.hiddenAttr = fs.hiddenAttr ∧
    (copyFilesList dest_path source fs cs).1.locked = fs.locked ∧
    fs.files ⊆ (copyFilesList dest_path source fs cs).1.files := by
  intro cs
  induction cs with
  | nil => intro dest_path source fs; exact ⟨rfl, rfl, rfl, fun x hx => hx⟩
  | cons c cs ih =>
    intro dest_path source fs
    obtain ⟨hd1, hh1, hl1, hf1⟩ := qfileCopy_state fs (pjoin source c) (pjoin dest_path c)
    simp only [copyFilesList]
    by_cases h1 : (qfileCopy fs (pjoin source c) (pjoin dest_path c)).2 = false
    · rw [if_pos h1]
      exact ⟨hd1, hh1, hl1, hf1⟩
    · rw [if_neg h1]
      obtain ⟨hd2, hh2, hl2, hf2⟩ := ih dest_path source (qfileCopy fs _ _).1
      exact ⟨hd2.trans hd1, hh2.trans hh1, hl2.trans hl1, hf1.trans hf2⟩

lemma copyFilesList_events : ∀ (cs : List Str) (dest_path source : Str) (fs : FS) (e : FSEvent),
    e ∈ (copyFilesList dest_path source fs cs).2.2 →
    ∃ c ∈ cs, e = FSEvent.copyFile (pjoin source c) (pjoin dest_path c) := by
  intro cs
  induction cs with
  | nil => intro dest_path source fs e h; cases h
  | cons c cs ih =>
    intro dest_path source fs e h
    simp only [copyFilesList] at h
    by_cases h1 : (qfileCopy fs (pjoin source c) (pjoin dest_path c)).2 = false
    · rw [if_pos h1] at h
      rcases List.mem_singleton.1 h with rfl
      exact ⟨c, List.mem_cons_self c cs, rfl⟩
    · rw [if_neg h1] at h
      rcases List.mem_cons.1 h with rfl | h2
      · exact ⟨c, List.mem_cons_self c cs, rfl⟩
      · obtain ⟨x, hx, he⟩ := ih _ _ _ e h2
        exact ⟨x, List.mem_cons_of_mem _ hx, he⟩

lemma copyFilesList_fail_trace : ∀ (cs : List Str) (dest_path source : Str) (fs : FS),
    (copyFilesList dest_path source fs cs).2.1 = false →
    ∃ pre c post, cs = pre ++ c :: post ∧
      (copyFilesList dest_path source fs cs).2.2 =
        (pre ++ [c]).map fun n => FSEvent.copyFile (pjoin source n) (pjoin dest_path n) := by
  intro cs
  induction cs with
  | nil => intro dest_path source fs h; cases h
  | cons c cs ih =>
    intro dest_path source fs h
    simp only [copyFilesList] at h ⊢
    by_cases h1 : (qfileCopy fs (pjoin source c) (pjoin dest_path c)).2 = false
    · rw [if_pos h1]
      exact ⟨[], c, cs, rfl, by simp⟩
    · rw [if_neg h1] at h ⊢
      obtain ⟨pre, x, post, hps, htr⟩ := ih dest_path source _ h
      refine ⟨c :: pre, x, post, by rw [hps]; rfl, ?_⟩
      simp only [List.cons_append, List.map_cons, List.cons.injEq, true_and]
      exact htr

lemma copyFilesList_new : ∀ (cs : List Str) (dest_path source : Str) (fs : FS) (q : Str),
    q ∈ (copyFilesList dest_path source fs cs).1.files →
    q ∈ fs.files ∨ ∃ src, FSEvent.copyFile src q ∈ (copyFilesList dest_path source fs cs).2.2 := by
  intro cs
  induction cs with
  | nil => intro dest_path source fs q h; exact Or.inl h
  | cons c cs ih =>
    intro dest_path source fs q h
    simp only [copyFilesList] at h ⊢
    by_cases h1 : (qfileCopy fs (pjoin source c) (pjoin dest_path c)).2 = false
    · rw [if_pos h1] at h ⊢
      rcases qfileCopy_new fs _ _ q h with h2 | h2
      · exact Or.inl h2
      · exact Or.inr ⟨pjoin source c, by rw [h2]; exact List.mem_singleton.2 rfl⟩
    · rw [if_neg h1] at h ⊢
      rcases ih dest_path source _ q h with h2 | h2
      · rcases qfileCopy_new fs _ _ q h2 with h3 | h3
        · exact Or.inl h3
        · exact Or.inr ⟨pjoin source c, by rw [h3]; exact List.mem_cons_self _ _⟩
      · obtain ⟨src, hsrc⟩ := h2
        exact Or.inr ⟨src, List.mem_cons_of_mem _ hsrc⟩

/-! ## Tree-walk lemmas: remove -/

lemma bool_ne_false {b : Bool} (h : ¬ b = false) : b = true := by
  cases b
  · exact absurd rfl h
  · rfl

/-- `b` shrinks from `a`: no file or directory appears, and the
attribute maps are untouched. -/
def ShrinkFS (b a : FS) : Prop :=
  b.files ⊆ a.files ∧ b.dirs ⊆ a.dirs ∧ b.hiddenAttr = a.hiddenAttr ∧ b.locked = a.locked

lemma ShrinkFS_refl (a : FS) : ShrinkFS a a := ⟨fun _ hx => hx, fun _ hx => hx, rfl, rfl⟩

lemma ShrinkFS_trans {a b c : FS} (h1 : ShrinkFS a b) (h2 : ShrinkFS b c) : ShrinkFS a c :=
  ⟨h1.1.trans h2.1, h1.2.1.trans h2.2.1, h1.2.2.1.trans h2.2.2.1, h1.2.2.2.trans h2.2.2.2⟩

lemma qfileRemove_shrink (fs : FS) (p : Str) : ShrinkFS (qfileRemove fs p).1 fs := by
  obtain ⟨hd, hh, hl, hf⟩ := qfileRemove_state fs p
  exact ⟨hf, hd ▸ fun _ hx => hx, hh, hl⟩

lemma qfileMoveToTrash_shrink (fs : FS) (p : Str) : ShrinkFS (qfileMoveToTrash fs p).1 fs := by
  obtain ⟨hd, hh, hl, hf⟩ := qfileMoveToTrash_state fs p
  exact ⟨hf, hd ▸ fun _ hx => hx, hh, hl⟩

lemma qdirRmdir_shrink (fs : FS) (p : Str) : ShrinkFS (qdirRmdir fs p).1 fs := by
  obtain ⟨hf, hh, hl, hd⟩ := qdirRmdir_state fs p
  exact ⟨hf ▸ fun _ hx => hx, hd, hh, hl⟩

lemma removeFilesList_shrink (ps : List Str) (fs : FS) :
    ShrinkFS (removeFilesList fs ps).1 fs := by
  obtain ⟨hd, hh, hl, hf⟩ := removeFilesList_state ps fs
  exact ⟨hf, hd ▸ fun _ hx => hx, hh, hl⟩

lemma trashFilesList_shrink (ps : List Str) (fs : FS) :
    ShrinkFS (trashFilesList fs ps).1 fs := by
  obtain ⟨hd, hh, hl, hf⟩ := trashFilesList_state ps fs
  exact ⟨hf, hd ▸ fun _ hx => hx, hh, hl⟩

lemma removeTrees_shrink : ∀ (fuel : Nat) (ps : List Str) (fs : FS),
    ShrinkFS (removeTrees fuel fs ps).1 fs := by
  intro fuel
  induction fuel with
  | zero =>
    intro ps fs
    cases ps with
    | nil => exact ShrinkFS_refl fs
    | cons p ps => exact ShrinkFS_refl fs
  | succ n ih =>
    intro ps fs
    cases ps with
    | nil => exact ShrinkFS_refl fs
    | cons path rest =>
      simp only [removeTrees]
      have hA := ih ((childDirs fs true path).map (pjoin path)) fs
      by_cases hb1 : (removeTrees n fs ((childDirs fs true path).map (pjoin path))).2.1 = false
      · rw [if_pos hb1]
        exact hA
      · rw [if_neg hb1]
        have hB := removeFilesList_shrink
          ((childFiles (removeTrees n fs ((childDirs fs true path).map (pjoin path))).1
            true path).map (pjoin path))
          (removeTrees n fs ((childDirs fs true path).map (pjoin path))).1
        by_cases hb2 : (removeFilesList (removeTrees n fs
            ((childDirs fs true path).map (pjoin path))).1
            ((childFiles (removeTrees n fs ((childDirs fs true path).map (pjoin path))).1
              true path).map (pjoin path))).2.1 = false
        · rw [if_pos hb2]
          exact ShrinkFS_trans hB hA
        · rw [if_neg hb2]
          have hC := qdirRmdir_shrink (removeFilesList (removeTrees n fs
            ((childDirs fs true path).map (pjoin path))).1
            ((childFiles (removeTrees n fs ((childDirs fs true path).map (pjoin path))).1
              true path).map (pjoin path))).1 path
          by_cases hb3 : (qdirRmdir (removeFilesList (removeTrees n fs
              ((childDirs fs true path).map (pjoin path))).1
              ((childFiles (removeTrees n fs ((childDirs fs true path).map (pjoin path))).1
                true path).map (pjoin path))).1 path).2 = false
          · rw [if_pos hb3]
            exact ShrinkFS_trans (ShrinkFS_trans hC hB) hA
          · rw [if_neg hb3]
            exact ShrinkFS_trans (ih rest _) (ShrinkFS_trans (ShrinkFS_trans hC hB) hA)

lemma child_event_under (path : Str) (cl : List Str) (p' : Str)
    (hp' : p' ∈ cl.map (pjoin path)) (x : Str) (hx : x = p' ∨ underPath p' x) :
    underPath path x := by
  obtain ⟨c, _, rfl⟩ := List.mem_map.1 hp'
  rcases hx with rfl | hx
  · exact underPath_pjoin path c
  · exact underPath_trans_pjoin path c x hx

lemma removeTrees_events : ∀ (fuel : Nat) (ps : List Str) (fs : FS) (e : FSEvent),
    e ∈ (removeTrees fuel fs ps).2.2 →
    ∃ p ∈ ps, eventPath e = p ∨ underPath p (eventPath e) := by
  intro fuel
  induction fuel with
  | zero =>
    intro ps fs e h
    cases ps with
    | nil => cases h
    | cons p ps => cases h
  | succ n ih =>
    intro ps fs e h
    cases ps with
    | nil => cases h
    | cons path rest =>
      simp only [removeTrees] at h
      set A := removeTrees n fs ((childDirs fs true path).map (pjoin path)) with hA
      set B := removeFilesList A.1 ((childFiles A.1 true path).map (pjoin path)) with hB
      set C := qdirRmdir B.1 path with hC
      by_cases hb1 : A.2.1 = false
      · rw [if_pos hb1] at h
        obtain ⟨p', hp', he⟩ := ih _ fs e (hA ▸ h)
        exact ⟨path, List.mem_cons_self _ _, Or.inr (child_event_under path _ p' hp' _ he)⟩
      · rw [if_neg hb1] at h
        by_cases hb2 : B.2.1 = false
        · rw [if_pos hb2] at h
          rcases List.mem_append.1 h with h2 | h2
          · obtain ⟨p', hp', he⟩ := ih _ fs e (hA ▸ h2)
            exact ⟨path, List.mem_cons_self _ _, Or.inr (child_event_under path _ p' hp' _ he)⟩
          · obtain ⟨p', hp', he⟩ := removeFilesList_events _ _ e (hB ▸ h2)
            refine ⟨path, List.mem_cons_self _ _, Or.inr ?_⟩
            rw [he]
            exact child_event_under path _ p' hp' p' (Or.inl rfl)
        · rw [if_neg hb2] at h
          by_cases hb3 : C.2 = false
          · rw [if_pos hb3] at h
            rcases List.mem_append.1 h with h2 | h2
            · rcases List.mem_append.1 h2 with h3 | h3
              · obtain ⟨p', hp', he⟩ := ih _ fs e (hA ▸ h3)
                exact ⟨path, List.mem_cons_self _ _,
                  Or.inr (child_event_under path _ p' hp' _ he)⟩
              · obtain ⟨p', hp', he⟩ := removeFilesList_events _ _ e (hB ▸ h3)
                refine ⟨path, List.mem_cons_self _ _, Or.inr ?_⟩
                rw [he]
                exact child_event_under path _ p' hp' p' (Or.inl rfl)
            · rcases List.mem_singleton.1 h2 with rfl
              exact ⟨path, List.mem_cons_self _ _, Or.inl rfl⟩
          · rw [if_neg hb3] at h
            rcases List.mem_append.1 h with h2 | h2
            · rcases List.mem_append.1 h2 with h3 | h3
              · rcases List.mem_append.1 h3 with h4 | h4
                · obtain ⟨p', hp', he⟩ := ih _ fs e (hA ▸ h4)
                  exact ⟨path, List.mem_cons_self _ _,
                    Or.inr (child_event_under path _ p' hp' _ he)⟩
                · obtain ⟨p', hp', he⟩ := removeFilesList_events _ _ e (hB ▸ h4)
                  refine ⟨path, List.mem_cons_self _ _, Or.inr ?_⟩
                  rw [he]
                  exact child_event_under path _ p' hp' p' (Or.inl rfl)
              · rcases List.mem_singleton.1 h3 with rfl
                exact ⟨path, List.mem_cons_self _ _, Or.inl rfl⟩
            · obtain ⟨p', hp', he⟩ := ih rest C.1 e (hC ▸ h2)
              exact ⟨p', List.mem_cons_of_mem _ hp', he⟩

lemma removeTrees_removed : ∀ (fuel : Nat) (ps : List Str) (fs : FS) (q : Str),
    q ∈ fs.files → q ∉ (removeTrees fuel fs ps).1.files →
    FSEvent.removeFile q ∈ (removeTrees fuel fs ps).2.2 := by
  intro fuel
  induction fuel with
  | zero =>
    intro ps fs q hq h
    cases ps with
    | nil => exact absurd hq h
    | cons p ps => exact absurd hq h
  | succ n ih =>
    intro ps fs q hq h
    cases ps with
    | nil => exact absurd hq h
    | cons path rest =>
      simp only [removeTrees] at h ⊢
      set A := removeTrees n fs ((childDirs fs true path).map (pjoin path)) with hA
      set B := removeFilesList A.1 ((childFiles A.1 true path).map (pjoin path)) with hB
      set C := qdirRmdir B.1 path with hC
      by_cases hb1 : A.2.1 = false
      · rw [if_pos hb1] at h ⊢
        exact hA ▸ ih _ fs q hq (hA ▸ h)
      · rw [if_neg hb1] at h ⊢
        by_cases hb2 : B.2.1 = false
        · rw [if_pos hb2] at h ⊢
          by_cases h2 : q ∈ A.1.files
          · exact List.mem_append_right _ (hB ▸ removeFilesList_removed _ A.1 q h2 (hB ▸ h))
          · exact List.mem_append_left _ (hA ▸ ih _ fs q hq (hA ▸ h2))
        · rw [if_neg hb2] at h ⊢
          have hCfiles : C.1.files = B.1.files := (qdirRmdir_state B.1 path).1
          by_cases hb3 : C.2 = false
          · rw [if_pos hb3] at h ⊢
            rw [hCfiles] at h
            by_cases h2 : q ∈ A.1.files
            · exact List.mem_append_left _
                (List.mem_append_right _ (hB ▸ removeFilesList_removed _ A.1 q h2 (hB ▸ h)))
            · exact List.mem_append_left _
                (List.mem_append_left _ (hA ▸ ih _ fs q hq (hA ▸ h2)))
          · rw [if_neg hb3] at h ⊢
            by_cases h3 : q ∈ C.1.files
            · exact List.mem_append_right _ (hC ▸ ih rest C.1 q h3 (hC ▸ h))
            · rw [hCfiles] at h3
              by_cases h2 : q ∈ A.1.files
              · exact List.mem_append_left _ (List.mem_append_left _ (List.mem_append_right _
                  (hB ▸ removeFilesList_removed _ A.1 q h2 (hB ▸ h3))))
              · exact List.mem_append_left _ (List.mem_append_left _ (List.mem_append_left _
                  (hA ▸ ih _ fs q hq (hA ▸ h2))))

/-- The children phase of one `RemoveRecursive` call. -/
def removeStepA (n : Nat) (fs : FS) (path : Str) : FS × Bool × List FSEvent :=
  removeTrees n fs ((childDirs fs true path).map (pjoin path))

/-- The file phase of one `RemoveRecursive` call. -/
def removeStepB (n : Nat) (fs : FS) (path : Str) : FS × Bool × List FSEvent :=
  removeFilesList (removeStepA n fs path).1
    ((childFiles (removeStepA n fs path).1 true path).map (pjoin path))

/-- The final `rmdir` of one `RemoveRecursive` call. -/
def removeStepC (n : Nat) (fs : FS) (path : Str) : FS × Bool :=
  qdirRmdir (removeStepB n fs path).1 path

lemma removeTrees_one_succ (n : Nat) (fs : FS) (path : Str)
    (h : (removeTrees (n + 1) fs [path]).2.1 = true) :
    (removeStepA n fs path).2.1 = true ∧ (removeStepB n fs path).2.1 = true ∧
    (removeStepC n fs path).2 = true ∧
    (removeTrees (n + 1) fs [path]).1 = (removeStepC n fs path).1 ∧
    (removeTrees (n + 1) fs [path]).2.2 =
      (removeStepA n fs path).2.2 ++ (removeStepB n fs path).2.2 ++ [FSEvent.rmdir path] := by
  simp only [removeStepA, removeStepB, removeStepC]
  simp only [removeTrees] at h ⊢
  set A := removeTrees n fs ((childDirs fs true path).map (pjoin path)) with hA
  set B := removeFilesList A.1 ((childFiles A.1 true path).map (pjoin path)) with hB
  set C := qdirRmdir B.1 path with hC
  by_cases hb1 : A.2.1 = false
  · rw [if_pos hb1] at h
    simp at h
  · rw [if_neg hb1] at h ⊢
    by_cases hb2 : B.2.1 = false
    · rw [if_pos hb2] at h
      simp at h
    · rw [if_neg hb2] at h ⊢
      by_cases hb3 : C.2 = false
      · rw [if_pos hb3] at h
        simp at h
      · rw [if_neg hb3] at h ⊢
        exact ⟨bool_ne_false hb1, bool_ne_false hb2, bool_ne_false hb3, rfl, by simp⟩

lemma childDirs_ext (fs1 fs2 : FS) (hd : fs1.dirs = fs2.dirs)
    (hh : fs1.hiddenAttr = fs2.hiddenAttr) (inc : Bool) (p : Str) :
    childDirs fs1 inc p = childDirs fs2 inc p := by
  unfold childDirs
  rw [hd, hh]

lemma childFiles_ext (fs1 fs2 : FS) (hf : fs1.files = fs2.files)
    (hh : fs1.hiddenAttr = fs2.hiddenAttr) (inc : Bool) (p : Str) :
    childFiles fs1 inc p = childFiles fs2 inc p := by
  unfold childFiles
  rw [hf, hh]

lemma childDirs_empty_of_subset (fs1 fs2 : FS) (hsub : fs1.dirs ⊆ fs2.dirs)
    (p : Str) (h : childDirs fs2 true p = []) :
    childDirs fs1 true p = [] := by
  rw [List.eq_nil_iff_forall_not_mem]
  intro c hc
  obtain ⟨hmem, _, hok⟩ := (mem_childDirs fs1 true p c).1 hc
  have hmem2 : c ∈ childDirs fs2 true p :=
    (mem_childDirs fs2 true p c).2 ⟨hsub hmem, Or.inl rfl, hok⟩
  rw [h] at hmem2
  cases hmem2

lemma childFiles_empty_of_subset (fs1 fs2 : FS) (hsub : fs1.files ⊆ fs2.files)
    (p : Str) (h : childFiles fs2 true p = []) :
    childFiles fs1 true p = [] := by
  rw [List.eq_nil_iff_forall_not_mem]
  intro c hc
  obtain ⟨hmem, _, hok⟩ := (mem_childFiles fs1 true p c).1 hc
  have hmem2 : c ∈ childFiles fs2 true p :=
    (mem_childFiles fs2 true p c).2 ⟨hsub hmem, Or.inl rfl, hok⟩
  rw [h] at hmem2
  cases hmem2

/-- A successful `RemoveRecursive` leaves the root directory gone and
childless (hidden entries included). -/
lemma removeTrees_one_succ_empty (n : Nat) (fs : FS) (path : Str)
    (h : (removeTrees (n + 1) fs [path]).2.1 = true) :
    path ∉ (removeTrees (n + 1) fs [path]).1.dirs ∧
    childDirs (removeTrees (n + 1) fs [path]).1 true path = [] ∧
    childFiles (removeTrees (n + 1) fs [path]).1 true path = [] := by
  obtain ⟨_, _, hc, hst, _⟩ := removeTrees_one_succ n fs path h
  obtain ⟨_, hcd, hcf, hdirs⟩ := qdirRmdir_succ (removeStepB n fs path).1 path hc
  obtain ⟨hfC, hhC, _, _⟩ := qdirRmdir_state (removeStepB n fs path).1 path
  refine ⟨?_, ?_, ?_⟩
  · rw [hst]
    intro hmem
    rw [removeStepC, hdirs] at hmem
    have := (List.mem_filter.1 hmem).2
    simp at this
  · rw [hst]
    exact childDirs_empty_of_subset _ _ (qdirRmdir_state _ path).2.2.2 path hcd
  · rw [hst]
    rw [childFiles_ext (removeStepC n fs path).1 (removeStepB n fs path).1 hfC hhC]
    exact hcf

/-! ## Tree-walk lemmas: trash -/

lemma trashTrees_shrink : ∀ (fuel : Nat) (ps : List Str) (fs : FS),
    ShrinkFS (trashTrees fuel fs ps).1 fs := by
  intro fuel
  induction fuel with
  | zero =>
    intro ps fs
    cases ps with
    | nil => exact ShrinkFS_refl fs
    | cons p ps => exact ShrinkFS_refl fs
  | succ n ih =>
    intro ps fs
    cases ps with
    | nil => exact ShrinkFS_refl fs
    | cons path rest =>
      simp only [trashTrees]
      set A := trashTrees n fs ((childDirs fs true path).map (pjoin path)) with hA
      set B := trashFilesList A.1 ((childFiles A.1 true path).map (pjoin path)) with hB
      set C := qdirRmdir B.1 path with hC
      have hAs : ShrinkFS A.1 fs := hA ▸ ih _ fs
      have hBs : ShrinkFS B.1 A.1 := hB ▸ trashFilesList_shrink _ A.1
      have hCs : ShrinkFS C.1 B.1 := hC ▸ qdirRmdir_shrink B.1 path
      by_cases hb1 : A.2.1 = false
      · rw [if_pos hb1]
        exact hAs
      · rw [if_neg hb1]
        by_cases hb2 : B.2.1 = false
        · rw [if_pos hb2]
          exact ShrinkFS_trans hBs hAs
        · rw [if_neg hb2]
          by_cases hb3 : C.2 = false
          · rw [if_pos hb3]
            exact ShrinkFS_trans (ShrinkFS_trans hCs hBs) hAs
          · rw [if_neg hb3]
            exact ShrinkFS_trans (hC ▸ ih rest C.1)
              (ShrinkFS_trans (ShrinkFS_trans hCs hBs) hAs)

lemma trashTrees_events : ∀ (fuel : Nat) (ps : List Str) (fs : FS) (e : FSEvent),
    e ∈ (trashTrees fuel fs ps).2.2 →
    ∃ p ∈ ps, eventPath e = p ∨ underPath p (eventPath e) := by
  intro fuel
  induction fuel with
  | zero =>
    intro ps fs e h
    cases ps with
    | nil => cases h
    | cons p ps => cases h
  | succ n ih =>
    intro ps fs e h
    cases ps with
    | nil => cases h
    | cons path rest =>
      simp only [trashTrees] at h
      set A := trashTrees n fs ((childDirs fs true path).map (pjoin path)) with hA
      set B := trashFilesList A.1 ((childFiles A.1 true path).map (pjoin path)) with hB
      set C := qdirRmdir B.1 path with hC
      by_cases hb1 : A.2.1 = false
      · rw [if_pos hb1] at h
        obtain ⟨p', hp', he⟩ := ih _ fs e (hA ▸ h)
        exact ⟨path, List.mem_cons_self _ _, Or.inr (child_event_under path _ p' hp' _ he)⟩
      · rw [if_neg hb1] at h
        by_cases hb2 : B.2.1 = false
        · rw [if_pos hb2] at h
          rcases List.mem_append.1 h with h2 | h2
          · obtain ⟨p', hp', he⟩ := ih _ fs e (hA ▸ h2)
            exact ⟨path, List.mem_cons_self _ _, Or.inr (child_event_under path _ p' hp' _ he)⟩
          · obtain ⟨p', hp', he⟩ := trashFilesList_events _ _ e (hB ▸ h2)
            refine ⟨path, List.mem_cons_self _ _, Or.inr ?_⟩
            rw [he]
            exact child_event_under path _ p' hp' p' (Or.inl rfl)
        · rw [if_neg hb2] at h
          by_cases hb3 : C.2 = false
          · rw [if_pos hb3] at h
            rcases List.mem_append.1 h with h2 | h2
            · rcases List.mem_append.1 h2 with h3 | h3
              · obtain ⟨p', hp', he⟩ := ih _ fs e (hA ▸ h3)
                exact ⟨path, List.mem_cons_self _ _,
                  Or.inr (child_event_under path _ p' hp' _ he)⟩
              · obtain ⟨p', hp', he⟩ := trashFilesList_events _ _ e (hB ▸ h3)
                refine ⟨path, List.mem_cons_self _ _, Or.inr ?_⟩
                rw [he]
                exact child_event_under path _ p' hp' p' (Or.inl rfl)
            · rcases List.mem_singleton.1 h2 with rfl
              exact ⟨path, List.mem_cons_self _ _, Or.inl rfl⟩
          · rw [if_neg hb3] at h
            rcases List.mem_append.1 h with h2 | h2
            · rcases List.mem_append.1 h2 with h3 | h3
              · rcases List.mem_append.1 h3 with h4 | h4
                · obtain ⟨p', hp', he⟩ := ih _ fs e (hA ▸ h4)
                  exact ⟨path, List.mem_cons_self _ _,
                    Or.inr (child_event_under path _ p' hp' _ he)⟩
                · obtain ⟨p', hp', he⟩ := trashFilesList_events _ _ e (hB ▸ h4)
                  refine ⟨path, List.mem_cons_self _ _, Or.inr ?_⟩
                  rw [he]
                  exact child_event_under path _ p' hp' p' (Or.inl rfl)
              · rcases List.mem_singleton.1 h3 with rfl
                exact ⟨path, List.mem_cons_self _ _, Or.inl rfl⟩
            · obtain ⟨p', hp', he⟩ := ih rest C.1 e (hC ▸ h2)
              exact ⟨p', List.mem_cons_of_mem _ hp', he⟩

lemma trashTrees_removed : ∀ (fuel : Nat) (ps : List Str) (fs : FS) (q : Str),
    q ∈ fs.files → q ∉ (trashTrees fuel fs ps).1.files →
    FSEvent.trashFile q ∈ (trashTrees fuel fs ps).2.2 := by
  intro fuel
  induction fuel with
  | zero =>
    intro ps fs q hq h
    cases ps with
    | nil => exact absurd hq h
    | cons p ps => exact absurd hq h
  | succ n ih =>
    intro ps fs q hq h
    cases ps with
    | nil => exact absurd hq h
    | cons path rest =>
      simp only [trashTrees] at h ⊢
      set A := trashTrees n fs ((childDirs fs true path).map (pjoin path)) with hA
      set B := trashFilesList A.1 ((childFiles A.1 true path).map (pjoin path)) with hB
      set C := qdirRmdir B.1 path with hC
      by_cases hb1 : A.2.1 = false
      · rw [if_pos hb1] at h ⊢
        exact hA ▸ ih _ fs q hq (hA ▸ h)
      · rw [if_neg hb1] at h ⊢
        by_cases hb2 : B.2.1 = false
        · rw [if_pos hb2] at h ⊢
          by_cases h2 : q ∈ A.1.files
          · exact List.mem_append_right _ (hB ▸ trashFilesList_removed _ A.1 q h2 (hB ▸ h))
          · exact List.mem_append_left _ (hA ▸ ih _ fs q hq (hA ▸ h2))
        · rw [if_neg hb2] at h ⊢
          have hCfiles : C.1.files = B.1.files := (qdirRmdir_state B.1 path).1
          by_cases hb3 : C.2 = false
          · rw [if_pos hb3] at h ⊢
            rw [hCfiles] at h
            by_cases h2 : q ∈ A.1.files
            · exact List.mem_append_left _
                (List.mem_append_right _ (hB ▸ trashFilesList_removed _ A.1 q h2 (hB ▸ h)))
            · exact List.mem_append_left _
                (List.mem_append_left _ (hA ▸ ih _ fs q hq (hA ▸ h2)))
          · rw [if_neg hb3] at h ⊢
            by_cases h3 : q ∈ C.1.files
            · exact List.mem_append_right _ (hC ▸ ih rest C.1 q h3 (hC ▸ h))
            · rw [hCfiles] at h3
              by_cases h2 : q ∈ A.1.files
              · exact List.mem_append_left _ (List.mem_append_left _ (List.mem_append_right _
                  (hB ▸ trashFilesList_removed _ A.1 q h2 (hB ▸ h3))))
              · exact List.mem_append_left _ (List.mem_append_left _ (List.mem_append_left _
                  (hA ▸ ih _ fs q hq (hA ▸ h2))))

/-- The children phase of one `MoveToTrashRecursive` call. -/
def trashStepA (n : Nat) (fs : FS) (path : Str) : FS × Bool × List FSEvent :=
  trashTrees n fs ((childDirs fs true path).map (pjoin path))

/-- The file phase of one `MoveToTrashRecursive` call. -/
def trashStepB (n : Nat) (fs : FS) (path : Str) : FS × Bool × List FSEvent :=
  trashFilesList (trashStepA n fs path).1
    ((childFiles (trashStepA n fs path).1 true path).map (pjoin path))

/-- The final `rmdir` of one `MoveToTrashRecursive` call. -/
def trashStepC (n : Nat) (fs : FS) (path : Str) : FS × Bool :=
  qdirRmdir (trashStepB n fs path).1 path

lemma trashTrees_one_succ (n : Nat) (fs : FS) (path : Str)
    (h : (trashTrees (n + 1) fs [path]).2.1 = true) :
    (trashStepA n fs path).2.1 = true ∧ (trashStepB n fs path).2.1 = true ∧
    (trashStepC n fs path).2 = true ∧
    (trashTrees (n + 1) fs [path]).1 = (trashStepC n fs path).1 ∧
    (trashTrees (n + 1) fs [path]).2.2 =
      (trashStepA n fs path).2.2 ++ (trashStepB n fs path).2.2 ++ [FSEvent.rmdir path] := by
  simp only [trashStepA, trashStepB, trashStepC]
  simp only [trashTrees] at h ⊢
  set A := trashTrees n fs ((childDirs fs true path).map (pjoin path)) with hA
  set B := trashFilesList A.1 ((childFiles A.1 true path).map (pjoin path)) with hB
  set C := qdirRmdir B.1 path with hC
  by_cases hb1 : A.2.1 = false
  · rw [if_pos hb1] at h
    simp at h
  · rw [if_neg hb1] at h ⊢
    by_cases hb2 : B.2.1 = false
    · rw [if_pos hb2] at h
      simp at h
    · rw [if_neg hb2] at h ⊢
      by_cases hb3 : C.2 = false
      · rw [if_pos hb3] at h
        simp at h
      · rw [if_neg hb3] at h ⊢
        exact ⟨bool_ne_false hb1, bool_ne_false hb2, bool_ne_false hb3, rfl, by simp⟩

/-- A successful `MoveToTrashRecursive` leaves the root directory gone
and childless (hidden entries included). -/
lemma trashTrees_one_succ_empty (n : Nat) (fs : FS) (path : Str)
    (h : (trashTrees (n + 1) fs [path]).2.1 = true) :
    path ∉ (trashTrees (n + 1) fs [path]).1.dirs ∧
    childDirs (trashTrees (n + 1) fs [path]).1 true path = [] ∧
    childFiles (trashTrees (n + 1) fs [path]).1 true path = [] := by
  obtain ⟨_, _, hc, hst, _⟩ := trashTrees_one_succ n fs path h
  obtain ⟨_, hcd, hcf, hdirs⟩ := qdirRmdir_succ (trashStepB n fs path).1 path hc
  obtain ⟨hfC, hhC, _, _⟩ := qdirRmdir_state (trashStepB n fs path).1 path
  refine ⟨?_, ?_, ?_⟩
  · rw [hst]
    intro hmem
    rw [trashStepC, hdirs] at hmem
    have := (List.mem_filter.1 hmem).2
    simp at this
  · rw [hst]
    exact childDirs_empty_of_subset _ _ (qdirRmdir_state _ path).2.2.2 path hcd
  · rw [hst]
    rw [childFiles_ext (trashStepC n fs path).1 (trashStepB n fs path).1 hfC hhC]
    exact hcf

/-! ## Tree-walk lemmas: copy -/

/-- `b` grows from `a`: no file or directory disappears, and the
attribute maps are untouched. -/
def GrowFS (a b : FS) : Prop :=
  a.files ⊆ b.files ∧ a.dirs ⊆ b.dirs ∧ b.hiddenAttr = a.hiddenAttr ∧ b.locked = a.locked

lemma GrowFS_refl (a : FS) : GrowFS a a := ⟨fun _ hx => hx, fun _ hx => hx, rfl, rfl⟩

lemma GrowFS_trans {a b c : FS} (h1 : GrowFS a b) (h2 : GrowFS b c) : GrowFS a c :=
  ⟨h1.1.trans h2.1, h1.2.1.trans h2.2.1, h2.2.2.1.trans h1.2.2.1, h2.2.2.2.trans h1.2.2.2⟩

lemma qdirMkpath_grow (fs : FS) (p : Str) : GrowFS fs (qdirMkpath fs p) := by
  obtain ⟨hf, hh, hl, hd⟩ := qdirMkpath_state fs p
  exact ⟨hf ▸ fun _ hx => hx, hd, hh, hl⟩

lemma copyFilesList_grow (cs : List Str) (dest_path source : Str) (fs : FS) :
    GrowFS fs (copyFilesList dest_path source fs cs).1 := by
  obtain ⟨hd, hh, hl, hf⟩ := copyFilesList_state cs dest_path source fs
  exact ⟨hf, hd ▸ fun _ hx => hx, hh, hl⟩

lemma copyTrees_grow : ∀ (fuel : Nat) (ps : List (Str × Str)) (fs : FS),
    GrowFS fs (copyTrees fuel fs ps).1 := by
  intro fuel
  induction fuel with
  | zero =>
    intro ps fs
    cases ps with
    | nil => exact GrowFS_refl fs
    | cons p ps => exact GrowFS_refl fs
  | succ n ih =>
    intro ps fs
    cases ps with
    | nil => exact GrowFS_refl fs
    | cons sd rest =>
      obtain ⟨source, destination⟩ := sd
      simp only [copyTrees]
      set dp := pjoin destination (lastSection source) with hdp
      set fs0 := qdirMkpath fs dp with hfs0
      set A := copyTrees n fs0 ((childDirs fs0 false source).map
        fun c => (pjoin source c, dp)) with hA
      set B := copyFilesList dp source A.1 (childFiles A.1 false source) with hB
      have h0 : GrowFS fs fs0 := hfs0 ▸ qdirMkpath_grow fs dp
      have hAs : GrowFS fs0 A.1 := hA ▸ ih _ fs0
      have hBs : GrowFS A.1 B.1 := hB ▸ copyFilesList_grow _ dp source A.1
      by_cases hb1 : A.2.1 = false
      · rw [if_pos hb1]
        exact GrowFS_trans h0 hAs
      · rw [if_neg hb1]
        by_cases hb2 : B.2.1 = false
        · rw [if_pos hb2]
          exact GrowFS_trans h0 (GrowFS_trans hAs hBs)
        · rw [if_neg hb2]
          exact GrowFS_trans h0 (GrowFS_trans hAs (GrowFS_trans hBs (hB ▸ ih rest B.1)))

lemma copyTrees_new : ∀ (fuel : Nat) (ps : List (Str × Str)) (fs : FS) (q : Str),
    q ∈ (copyTrees fuel fs ps).1.files →
    q ∈ fs.files ∨ ∃ src, FSEvent.copyFile src q ∈ (copyTrees fuel fs ps).2.2 := by
  intro fuel
  induction fuel with
  | zero =>
    intro ps fs q h
    cases ps with
    | nil => exact Or.inl h
    | cons p ps => exact Or.inl h
  | succ n ih =>
    intro ps fs q h
    cases ps with
    | nil => exact Or.inl h
    | cons sd rest =>
      obtain ⟨source, destination⟩ := sd
      simp only [copyTrees] at h ⊢
      set dp := pjoin destination (lastSection source) with hdp
      set fs0 := qdirMkpath fs dp with hfs0
      set A := copyTrees n fs0 ((childDirs fs0 false source).map
        fun c => (pjoin source c, dp)) with hA
      set B := copyFilesList dp source A.1 (childFiles A.1 false source) with hB
      have hmk : fs0.files = fs.files := (qdirMkpath_state fs dp).1
      by_cases hb1 : A.2.1 = false
      · rw [if_pos hb1] at h ⊢
        rcases ih _ fs0 q (hA ▸ h) with h2 | ⟨src, hsrc⟩
        · exact Or.inl (hmk ▸ h2)
        · exact Or.inr ⟨src, List.mem_cons_of_mem _ (hA ▸ hsrc)⟩
      · rw [if_neg hb1] at h ⊢
        by_cases hb2 : B.2.1 = false
        · rw [if_pos hb2] at h ⊢
          rcases copyFilesList_new _ dp source A.1 q (hB ▸ h) with h2 | ⟨src, hsrc⟩
          · rcases ih _ fs0 q (hA ▸ h2) with h3 | ⟨src, hsrc⟩
            · exact Or.inl (hmk ▸ h3)
            · exact Or.inr ⟨src, List.mem_cons_of_mem _ (List.mem_append_left _ (hA ▸ hsrc))⟩
          · exact Or.inr ⟨src, List.mem_cons_of_mem _ (List.mem_append_right _ (hB ▸ hsrc))⟩
        · rw [if_neg hb2] at h ⊢
          rcases ih rest B.1 q (hB ▸ h) with h2 | ⟨src, hsrc⟩
          · rcases copyFilesList_new _ dp source A.1 q (hB ▸ h2) with h3 | ⟨src, hsrc⟩
            · rcases ih _ fs0 q (hA ▸ h3) with h4 | ⟨src, hsrc⟩
              · exact Or.inl (hmk ▸ h4)
              · exact Or.inr ⟨src, List.mem_cons_of_mem _
                  (List.mem_append_left _ (List.mem_append_left _ (hA ▸ hsrc)))⟩
            · exact Or.inr ⟨src, List.mem_cons_of_mem _
                (List.mem_append_left _ (List.mem_append_right _ (hB ▸ hsrc)))⟩
          · exact Or.inr ⟨src, List.mem_cons_of_mem _
              (List.mem_append_right _ (hB ▸ hsrc))⟩

lemma copyTrees_src_visible : ∀ (fuel : Nat) (ps : List (Str × Str)) (fs : FS) (src dst : Str),
    FSEvent.copyFile src dst ∈ (copyTrees fuel fs ps).2.2 → fs.hiddenAttr src = false := by
  intro fuel
  induction fuel with
  | zero =>
    intro ps fs src dst h
    cases ps with
    | nil => cases h
    | cons p ps => cases h
  | succ n ih =>
    intro ps fs src dst h
    cases ps with
    | nil => cases h
    | cons sd rest =>
      obtain ⟨source, destination⟩ := sd
      simp only [copyTrees] at h
      set dp := pjoin destination (lastSection source) with hdp
      set fs0 := qdirMkpath fs dp with hfs0
      set A := copyTrees n fs0 ((childDirs fs0 false source).map
        fun c => (pjoin source c, dp)) with hA
      set B := copyFilesList dp source A.1 (childFiles A.1 false source) with hB
      have hmk : fs0.hiddenAttr = fs.hiddenAttr := (qdirMkpath_state fs dp).2.1
      have hAh : A.1.hiddenAttr = fs0.hiddenAttr := (hA ▸ copyTrees_grow n _ fs0).2.2.1
      have hfile : ∀ e ∈ B.2.2, FSEvent.copyFile src dst = e → fs.hiddenAttr src = false := by
        intro e he heq
        obtain ⟨c, hc, he2⟩ := copyFilesList_events _ dp source A.1 e (hB ▸ he)
        rw [he2] at heq
        injection heq with h1 h2
        obtain ⟨_, hcond, _⟩ := (mem_childFiles A.1 false source c).1 hc
        rcases hcond with hf | hf
        · cases hf
        · rw [h1, ← hmk, ← hAh]
          exact hf
      by_cases hb1 : A.2.1 = false
      · rw [if_pos hb1] at h
        rcases List.mem_cons.1 h with heq | h2
        · cases heq
        · exact hmk ▸ ih _ fs0 src dst (hA ▸ h2)
      · rw [if_neg hb1] at h
        by_cases hb2 : B.2.1 = false
        · rw [if_pos hb2] at h
          rcases List.mem_cons.1 h with heq | h2
          · cases heq
          · rcases List.mem_append.1 h2 with h3 | h3
            · exact hmk ▸ ih _ fs0 src dst (hA ▸ h3)
            · exact hfile _ h3 rfl
        · rw [if_neg hb2] at h
          rcases List.mem_cons.1 h with heq | h2
          · cases heq
          · rcases List.mem_append.1 h2 with h3 | h3
            · rcases List.mem_append.1 h3 with h4 | h4
              · exact hmk ▸ ih _ fs0 src dst (hA ▸ h4)
              · exact hfile _ h4 rfl
            · have hBh : B.1.hiddenAttr = A.1.hiddenAttr :=
                (hB ▸ copyFilesList_grow _ dp source A.1).2.2.1
              have := ih rest B.1 src dst (hB ▸ h3)
              rw [hBh, hAh, hmk] at this
              exact this

/-! ## Short-circuit lemmas -/

lemma removeTrees_sc (fuel : Nat) (fs : FS) (p : Str) (rest : List Str)
    (h : (removeTrees (fuel + 1) fs [p]).2.1 = false) :
    removeTrees (fuel + 1) fs (p :: rest) = removeTrees (fuel + 1) fs [p] := by
  simp only [removeTrees] at h ⊢
  set A := removeTrees fuel fs ((childDirs fs true p).map (pjoin p)) with hA
  set B := removeFilesList A.1 ((childFiles A.1 true p).map (pjoin p)) with hB
  set C := qdirRmdir B.1 p with hC
  by_cases hb1 : A.2.1 = false
  · simp [hb1]
  · rw [if_neg hb1] at h
    by_cases hb2 : B.2.1 = false
    · simp [hb1, hb2]
    · rw [if_neg hb2] at h
      by_cases hb3 : C.2 = false
      · simp [hb1, hb2, hb3]
      · rw [if_neg hb3] at h
        simp at h

lemma trashTrees_sc (fuel : Nat) (fs : FS) (p : Str) (rest : List Str)
    (h : (trashTrees (fuel + 1) fs [p]).2.1 = false) :
    trashTrees (fuel + 1) fs (p :: rest) = trashTrees (fuel + 1) fs [p] := by
  simp only [trashTrees] at h ⊢
  set A := trashTrees fuel fs ((childDirs fs true p).map (pjoin p)) with hA
  set B := trashFilesList A.1 ((childFiles A.1 true p).map (pjoin p)) with hB
  set C := qdirRmdir B.1 p with hC
  by_cases hb1 : A.2.1 = false
  · simp [hb1]
  · rw [if_neg hb1] at h
    by_cases hb2 : B.2.1 = false
    · simp [hb1, hb2]
    · rw [if_neg hb2] at h
      by_cases hb3 : C.2 = false
      · simp [hb1, hb2, hb3]
      · rw [if_neg hb3] at h
        simp at h

lemma copyTrees_sc (fuel : Nat) (fs : FS) (sd : Str × Str) (rest : List (Str × Str))
    (h : (copyTrees (fuel + 1) fs [sd]).2.1 = false) :
    copyTrees (fuel + 1) fs (sd :: rest) = copyTrees (fuel + 1) fs [sd] := by
  obtain ⟨source, destination⟩ := sd
  simp only [copyTrees] at h ⊢
  set dp := pjoin destination (lastSection source) with hdp
  set fs0 := qdirMkpath fs dp with hfs0
  set A := copyTrees fuel fs0 ((childDirs fs0 false source).map
    fun c => (pjoin source c, dp)) with hA
  set B := copyFilesList dp source A.1 (childFiles A.1 false source) with hB
  by_cases hb1 : A.2.1 = false
  · simp [hb1]
  · rw [if_neg hb1] at h
    by_cases hb2 : B.2.1 = false
    · simp [hb1, hb2]
    · rw [if_neg hb2] at h
      simp at h

/-! ## Claims C6 to C10 -/

lemma removeTrees_missing (fuel : Nat) (fs : FS) (path : Str)
    (h1 : path ∉ fs.dirs) (h2 : childDirs fs true path = [])
    (h3 : childFiles fs true path = []) :
    (removeTrees fuel fs [path]).1 = fs ∧ (removeTrees fuel fs [path]).2.1 = false := by
  cases fuel with
  | zero => exact ⟨rfl, rfl⟩
  | succ n =>
    refine ⟨?_, ?_⟩ <;> simp [removeTrees, removeFilesList, qdirRmdir, h1, h2, h3]

/-- Claim C9: when the move-to-trash capability is absent,
`MoveToTrashRecursive` returns failure for every input path, with no
filesystem mutation and no primitive operation attempted. -/
theorem claimC9 : ∀ (fuel : Nat) (fs : FS) (path : Str),
    MoveToTrashRecursive false fuel fs path = (fs, false, []) :=
  fun _ _ _ => rfl

/-- Claim C10: on a path that does not exist (no directory entry and
no children), `RemoveRecursive` leaves the state unchanged and returns
`false` — both child enumerations are empty and the final `rmdir`
fails; consequently a second call on a path whose tree a previous
successful call removed also returns `false` (no idempotent success). -/
theorem claimC10 :
    (∀ (fuel : Nat) (fs : FS) (path : Str),
      path ∉ fs.dirs → childDirs fs true path = [] → childFiles fs true path = [] →
        (RemoveRecursive fuel fs path).1 = fs ∧ (RemoveRecursive fuel fs path).2.1 = false)
    ∧ ∀ (fuel fuel2 : Nat) (fs : FS) (path : Str),
        (RemoveRecursive fuel fs path).2.1 = true →
        (RemoveRecursive fuel2 (RemoveRecursive fuel fs path).1 path).1 =
          (RemoveRecursive fuel fs path).1 ∧
        (RemoveRecursive fuel2 (RemoveRecursive fuel fs path).1 path).2.1 = false := by
  constructor
  · intro fuel fs path h1 h2 h3
    exact removeTrees_missing fuel fs path h1 h2 h3
  · intro fuel fuel2 fs path h
    unfold RemoveRecursive at h ⊢
    cases fuel with
    | zero => simp [removeTrees] at h
    | succ n =>
      obtain ⟨hnd, hcd, hcf⟩ := removeTrees_one_succ_empty n fs path h
      exact removeTrees_missing fuel2 _ path hnd hcd hcf

/-- An empty filesystem, on which every removal fails. -/
def fsMissing : FS where
  dirs := []
  files := []
  hiddenAttr := fun _ => false
  locked := fun _ => false
  trashed := []

/-- Witness for claim C10 on a path absent from an empty filesystem. -/
theorem claimC10_witness :
    (RemoveRecursive 1 fsMissing "/gone".data).1 = fsMissing ∧
    (RemoveRecursive 1 fsMissing "/gone".data).2.1 = false :=
  claimC10.1 1 fsMissing "/gone".data (by decide) (by decide) (by decide)

/-- A successful `removeTrees` run emits the `rmdir` of every root in
its worklist: each tree in the list is fully processed, ending with
the removal of its own directory. -/
lemma removeTrees_succ_rmdirs : ∀ (fuel : Nat) (ps : List Str) (fs : FS),
    (removeTrees fuel fs ps).2.1 = true →
    ∀ p ∈ ps, FSEvent.rmdir p ∈ (removeTrees fuel fs ps).2.2 := by
  intro fuel
  induction fuel with
  | zero =>
    intro ps fs h p hp
    cases ps with
    | nil => cases hp
    | cons a as => simp [removeTrees] at h
  | succ n ih =>
    intro ps fs h p hp
    cases ps with
    | nil => cases hp
    | cons path rest =>
      simp only [removeTrees] at h ⊢
      set A := removeTrees n fs ((childDirs fs true path).map (pjoin path)) with hA
      set B := removeFilesList A.1 ((childFiles A.1 true path).map (pjoin path)) with hB
      set C := qdirRmdir B.1 path with hC
      by_cases hb1 : A.2.1 = false
      · rw [if_pos hb1] at h
        simp at h
      · rw [if_neg hb1] at h ⊢
        by_cases hb2 : B.2.1 = false
        · rw [if_pos hb2] at h
          simp at h
        · rw [if_neg hb2] at h ⊢
          by_cases hb3 : C.2 = false
          · rw [if_pos hb3] at h
            simp at h
          · rw [if_neg hb3] at h ⊢
            rcases List.mem_cons.1 hp with rfl | hp2
            · exact List.mem_append_left _
                (List.mem_append_right _ (List.mem_singleton.2 rfl))
            · exact List.mem_append_right _ (ih rest C.1 h p hp2)

/-- A successful `trashTrees` run emits the `rmdir` of every root in
its worklist. -/
lemma trashTrees_succ_rmdirs : ∀ (fuel : Nat) (ps : List Str) (fs : FS),
    (trashTrees fuel fs ps).2.1 = true →
    ∀ p ∈ ps, FSEvent.rmdir p ∈ (trashTrees fuel fs ps).2.2 := by
  intro fuel
  induction fuel with
  | zero =>
    intro ps fs h p hp
    cases ps with
    | nil => cases hp
    | cons a as => simp [trashTrees] at h
  | succ n ih =>
    intro ps fs h p hp
    cases ps with
    | nil => cases hp
    | cons path rest =>
      simp only [trashTrees] at h ⊢
      set A := trashTrees n fs ((childDirs fs true path).map (pjoin path)) with hA
      set B := trashFilesList A.1 ((childFiles A.1 true path).map (pjoin path)) with hB
      set C := qdirRmdir B.1 path with hC
      by_cases hb1 : A.2.1 = false
      · rw [if_pos hb1] at h
        simp at h
      · rw [if_neg hb1] at h ⊢
        by_cases hb2 : B.2.1 = false
        · rw [if_pos hb2] at h
          simp at h
        · rw [if_neg hb2] at h ⊢
          by_cases hb3 : C.2 = false
          · rw [if_pos hb3] at h
            simp at h
          · rw [if_neg hb3] at h ⊢
            rcases List.mem_cons.1 hp with rfl | hp2
            · exact List.mem_append_left _
                (List.mem_append_right _ (List.mem_singleton.2 rfl))
            · exact List.mem_append_right _ (ih rest C.1 h p hp2)

/-- Claim C7: a successful `RemoveRecursive` (and `MoveToTrashRecursive`)
run decomposes as a directory phase, then a file phase, then the final
`rmdir` of the root.  Every operation of the directory phase concerns
a child directory of the root or a path below one — in particular no
immediate child file is touched there — and each child directory's own
`rmdir` is emitted within that phase, so every child directory is
fully processed before any child file; the file phase consists only of
removals of immediate child files; the root's own `rmdir` comes last;
and the final state has neither the directory nor any child entry
left. -/
theorem claimC7 :
    (∀ (fuel : Nat) (fs : FS) (path : Str),
      (RemoveRecursive fuel fs path).2.1 = true →
      ∃ t1 t2, (RemoveRecursive fuel fs path).2.2 = t1 ++ t2 ++ [FSEvent.rmdir path] ∧
        (∀ e ∈ t1, ∃ c, c ≠ [] ∧ '/' ∉ c ∧ c ∈ childDirs fs true path ∧
          (eventPath e = pjoin path c ∨ underPath (pjoin path c) (eventPath e))) ∧
        (∀ c ∈ childDirs fs true path, FSEvent.rmdir (pjoin path c) ∈ t1) ∧
        (∀ e ∈ t2, ∃ c, c ≠ [] ∧ '/' ∉ c ∧ e = FSEvent.removeFile (pjoin path c)) ∧
        path ∉ (RemoveRecursive fuel fs path).1.dirs ∧
        childDirs (RemoveRecursive fuel fs path).1 true path = [] ∧
        childFiles (RemoveRecursive fuel fs path).1 true path = [])
    ∧ ∀ (fuel : Nat) (fs : FS) (path : Str),
      (MoveToTrashRecursive true fuel fs path).2.1 = true →
      ∃ t1 t2, (MoveToTrashRecursive true fuel fs path).2.2 =
          t1 ++ t2 ++ [FSEvent.rmdir path] ∧
        (∀ e ∈ t1, ∃ c, c ≠ [] ∧ '/' ∉ c ∧ c ∈ childDirs fs true path ∧
          (eventPath e = pjoin path c ∨ underPath (pjoin path c) (eventPath e))) ∧
        (∀ c ∈ childDirs fs true path, FSEvent.rmdir (pjoin path c) ∈ t1) ∧
        (∀ e ∈ t2, ∃ c, c ≠ [] ∧ '/' ∉ c ∧ e = FSEvent.trashFile (pjoin path c)) ∧
        path ∉ (MoveToTrashRecursive true fuel fs path).1.dirs ∧
        childDirs (MoveToTrashRecursive true fuel fs path).1 true path = [] ∧
        childFiles (MoveToTrashRecursive true fuel fs path).1 true path = [] := by
  constructor
  · intro fuel fs path h
    unfold RemoveRecursive at h ⊢
    cases fuel with
    | zero => simp [removeTrees] at h
    | succ n =>
      obtain ⟨ha, hb, hc, hst, htr⟩ := removeTrees_one_succ n fs path h
      obtain ⟨hnd, hcd, hcf⟩ := removeTrees_one_succ_empty n fs path h
      refine ⟨(removeStepA n fs path).2.2, (removeStepB n fs path).2.2, htr, ?_, ?_, ?_,
        hnd, hcd, hcf⟩
      · intro e he
        obtain ⟨p', hp', hor⟩ :=
          removeTrees_events n ((childDirs fs true path).map (pjoin path)) fs e he
        obtain ⟨c, hcd2, rfl⟩ := List.mem_map.1 hp'
        obtain ⟨_, _, hcne, hcsl⟩ := (mem_childDirs fs true path c).1 hcd2
        exact ⟨c, hcne, hcsl, hcd2, hor⟩
      · intro c hcd2
        exact removeTrees_succ_rmdirs n ((childDirs fs true path).map (pjoin path)) fs ha
          (pjoin path c) (List.mem_map.2 ⟨c, hcd2, rfl⟩)
      · intro e he
        obtain ⟨p', hp', he2⟩ := removeFilesList_events _ _ e he
        obtain ⟨c, hcmem, rfl⟩ := List.mem_map.1 hp'
        obtain ⟨_, _, hcne, hcsl⟩ :=
          (mem_childFiles (removeStepA n fs path).1 true path c).1 hcmem
        exact ⟨c, hcne, hcsl, he2⟩
  · intro fuel fs path h
    unfold MoveToTrashRecursive at h ⊢
    rw [if_pos rfl] at h ⊢
    cases fuel with
    | zero => simp [trashTrees] at h
    | succ n =>
      obtain ⟨ha, hb, hc, hst, htr⟩ := trashTrees_one_succ n fs path h
      obtain ⟨hnd, hcd, hcf⟩ := trashTrees_one_succ_empty n fs path h
      refine ⟨(trashStepA n fs path).2.2, (trashStepB n fs path).2.2, htr, ?_, ?_, ?_,
        hnd, hcd, hcf⟩
      · intro e he
        obtain ⟨p', hp', hor⟩ :=
          trashTrees_events n ((childDirs fs true path).map (pjoin path)) fs e he
        obtain ⟨c, hcd2, rfl⟩ := List.mem_map.1 hp'
        obtain ⟨_, _, hcne, hcsl⟩ := (mem_childDirs fs true path c).1 hcd2
        exact ⟨c, hcne, hcsl, hcd2, hor⟩
      · intro c hcd2
        exact trashTrees_succ_rmdirs n ((childDirs fs true path).map (pjoin path)) fs ha
          (pjoin path c) (List.mem_map.2 ⟨c, hcd2, rfl⟩)
      · intro e he
        obtain ⟨p', hp', he2⟩ := trashFilesList_events _ _ e he
        obtain ⟨c, hcmem, rfl⟩ := List.mem_map.1 hp'
        obtain ⟨_, _, hcne, hcsl⟩ :=
          (mem_childFiles (trashStepA n fs path).1 true path c).1 hcmem
        exact ⟨c, hcne, hcsl, he2⟩

/-- A two-level tree: a subdirectory with a file, plus a hidden file
directly under the root. -/
def fsNested : FS where
  dirs := ["/d".data, "/d/sub".data]
  files := ["/d/.h".data, "/d/sub/g".data]
  hiddenAttr := fun q => decide (q = "/d/.h".data)
  locked := fun _ => false
  trashed := []

/-- Witness for claim C7 on the two-level tree, whose successful
removal processes the subdirectory (ending in its `rmdir`) before the
root's own file and `rmdir`. -/
theorem claimC7_witness :
    ∃ t1 t2, (RemoveRecursive 3 fsNested "/d".data).2.2 =
        t1 ++ t2 ++ [FSEvent.rmdir "/d".data] ∧
      (∀ e ∈ t1, ∃ c, c ≠ [] ∧ '/' ∉ c ∧ c ∈ childDirs fsNested true "/d".data ∧
        (eventPath e = pjoin "/d".data c ∨
          underPath (pjoin "/d".data c) (eventPath e))) ∧
      (∀ c ∈ childDirs fsNested true "/d".data,
        FSEvent.rmdir (pjoin "/d".data c) ∈ t1) ∧
      (∀ e ∈ t2, ∃ c, c ≠ [] ∧ '/' ∉ c ∧ e = FSEvent.removeFile (pjoin "/d".data c)) ∧
      "/d".data ∉ (RemoveRecursive 3 fsNested "/d".data).1.dirs ∧
      childDirs (RemoveRecursive 3 fsNested "/d".data).1 true "/d".data = [] ∧
      childFiles (RemoveRecursive 3 fsNested "/d".data).1 true "/d".data = [] :=
  claimC7.1 3 fsNested "/d".data (by decide)

/-- Claim C6: a successful `RemoveRecursive` (and
`MoveToTrashRecursive`) attempts its file operation on every immediate
child file enumerated with hidden entries included, so hidden children
are processed; `CopyRecursive` never copies from a source path whose
hidden attribute is set, and the hidden-excluding enumeration never
lists a hidden child while the hidden-including one lists every child
(the deliberate policy asymmetry). -/
theorem claimC6 :
    (∀ (fuel : Nat) (fs : FS) (path : Str),
      (RemoveRecursive fuel fs path).2.1 = true →
      ∀ c ∈ childFiles fs true path,
        FSEvent.removeFile (pjoin path c) ∈ (RemoveRecursive fuel fs path).2.2)
    ∧ (∀ (fuel : Nat) (fs : FS) (path : Str),
      (MoveToTrashRecursive true fuel fs path).2.1 = true →
      ∀ c ∈ childFiles fs true path,
        FSEvent.trashFile (pjoin path c) ∈ (MoveToTrashRecursive true fuel fs path).2.2)
    ∧ (∀ (fuel : Nat) (fs : FS) (source destination src dst : Str),
      FSEvent.copyFile src dst ∈ (CopyRecursive fuel fs source destination).2.2 →
      fs.hiddenAttr src = false)
    ∧ (∀ (fs : FS) (p c : Str), fs.hiddenAttr (pjoin p c) = true →
      c ∉ childDirs fs false p ∧ c ∉ childFiles fs false p)
    ∧ ∀ (fs : FS) (p c : Str), pjoin p c ∈ fs.dirs → c ≠ [] → '/' ∉ c →
      c ∈ childDirs fs true p := by
  refine ⟨?_, ?_, ?_, ?_, ?_⟩
  · intro fuel fs path h c hc
    unfold RemoveRecursive at h ⊢
    cases fuel with
    | zero => simp [removeTrees] at h
    | succ n =>
      obtain ⟨ha, hb, hcsucc, hst, htr⟩ := removeTrees_one_succ n fs path h
      rw [htr]
      obtain ⟨hmem, _, hcne, hcsl⟩ := (mem_childFiles fs true path c).1 hc
      by_cases h2 : pjoin path c ∈ (removeStepA n fs path).1.files
      · have hc2 : c ∈ childFiles (removeStepA n fs path).1 true path :=
          (mem_childFiles _ true path c).2 ⟨h2, Or.inl rfl, hcne, hcsl⟩
        have hmemY : pjoin path c ∈
            (childFiles (removeStepA n fs path).1 true path).map (pjoin path) :=
          List.mem_map.2 ⟨c, hc2, rfl⟩
        have h3 : (removeStepB n fs path).2.2 =
            ((childFiles (removeStepA n fs path).1 true path).map (pjoin path)).map
              FSEvent.removeFile :=
          removeFilesList_succ_trace _ _ hb
        refine List.mem_append_left _ (List.mem_append_right _ ?_)
        rw [h3]
        exact List.mem_map.2 ⟨pjoin path c, hmemY, rfl⟩
      · have h4 := removeTrees_removed n ((childDirs fs true path).map (pjoin path)) fs
          (pjoin path c) hmem h2
        exact List.mem_append_left _ (List.mem_append_left _ h4)
  · intro fuel fs path h c hc
    unfold MoveToTrashRecursive at h ⊢
    rw [if_pos rfl] at h ⊢
    cases fuel with
    | zero => simp [trashTrees] at h
    | succ n =>
      obtain ⟨ha, hb, hcsucc, hst, htr⟩ := trashTrees_one_succ n fs path h
      rw [htr]
      obtain ⟨hmem, _, hcne, hcsl⟩ := (mem_childFiles fs true path c).1 hc
      by_cases h2 : pjoin path c ∈ (trashStepA n fs path).1.files
      · have hc2 : c ∈ childFiles (trashStepA n fs path).1 true path :=
          (mem_childFiles _ true path c).2 ⟨h2, Or.inl rfl, hcne, hcsl⟩
        have hmemY : pjoin path c ∈
            (childFiles (trashStepA n fs path).1 true path).map (pjoin path) :=
          List.mem_map.2 ⟨c, hc2, rfl⟩
        have h3 : (trashStepB n fs path).2.2 =
            ((childFiles (trashStepA n fs path).1 true path).map (pjoin path)).map
              FSEvent.trashFile :=
          trashFilesList_succ_trace _ _ hb
        refine List.mem_append_left _ (List.mem_append_right _ ?_)
        rw [h3]
        exact List.mem_map.2 ⟨pjoin path c, hmemY, rfl⟩
      · have h4 := trashTrees_removed n ((childDirs fs true path).map (pjoin path)) fs
          (pjoin path c) hmem h2
        exact List.mem_append_left _ (List.mem_append_left _ h4)
  · intro fuel fs source destination src dst h
    exact copyTrees_src_visible fuel [(source, destination)] fs src dst h
  · intro fs p c hhid
    constructor
    · intro hc
      obtain ⟨_, hcond, _⟩ := (mem_childDirs fs false p c).1 hc
      rcases hcond with hf | hf
      · cases hf
      · rw [hhid] at hf
        cases hf
    · intro hc
      obtain ⟨_, hcond, _⟩ := (mem_childFiles fs false p c).1 hc
      rcases hcond with hf | hf
      · cases hf
      · rw [hhid] at hf
        cases hf
  · intro fs p c hmem hcne hcsl
    exact (mem_childDirs fs true p c).2 ⟨hmem, Or.inl rfl, hcne, hcsl⟩

/-- Witness for claim C6: the hidden child file of `fsHidden` gets a
remove attempt during a successful `RemoveRecursive`. -/
theorem claimC6_witness :
    FSEvent.removeFile (pjoin "/d".data ".h".data) ∈
      (RemoveRecursive 2 fsHidden "/d".data).2.2 :=
  claimC6.1 2 fsHidden "/d".data (by decide) ".h".data (by decide)

/-- Claim C8: all three walks short-circuit — once a root's processing
fails, later worklist entries are not attempted and the state and
trace are exactly those at the failure; the file loops stop at the
first failing child with a trace covering exactly the attempted
prefix; and no rollback is performed — remove and trash only ever
shrink the filesystem, copy only ever grows it, and every file present
after a copy either pre-existed or was the destination of an attempted
copy operation. -/
theorem claimC8 :
    (∀ (fuel : Nat) (fs : FS) (p : Str) (rest : List Str),
      (removeTrees (fuel + 1) fs [p]).2.1 = false →
      removeTrees (fuel + 1) fs (p :: rest) = removeTrees (fuel + 1) fs [p])
    ∧ (∀ (fuel : Nat) (fs : FS) (p : Str) (rest : List Str),
      (trashTrees (fuel + 1) fs [p]).2.1 = false →
      trashTrees (fuel + 1) fs (p :: rest) = trashTrees (fuel + 1) fs [p])
    ∧ (∀ (fuel : Nat) (fs : FS) (sd : Str × Str) (rest : List (Str × Str)),
      (copyTrees (fuel + 1) fs [sd]).2.1 = false →
      copyTrees (fuel + 1) fs (sd :: rest) = copyTrees (fuel + 1) fs [sd])
    ∧ (∀ (fuel : Nat) (fs : FS) (path : Str),
      ShrinkFS (RemoveRecursive fuel fs path).1 fs)
    ∧ (∀ (avail : Bool) (fuel : Nat) (fs : FS) (path : Str),
      ShrinkFS (MoveToTrashRecursive avail fuel fs path).1 fs)
    ∧ (∀ (fuel : Nat) (fs : FS) (s d : Str), GrowFS fs (CopyRecursive fuel fs s d).1)
    ∧ (∀ (fuel : Nat) (fs : FS) (s d q : Str),
      q ∈ (CopyRecursive fuel fs s d).1.files →
      q ∈ fs.files ∨ ∃ src, FSEvent.copyFile src q ∈ (CopyRecursive fuel fs s d).2.2)
    ∧ (∀ (ps : List Str) (fs : FS), (removeFilesList fs ps).2.1 = false →
      ∃ pre c post, ps = pre ++ c :: post ∧
        (removeFilesList fs ps).2.2 = (pre ++ [c]).map FSEvent.removeFile)
    ∧ ∀ (cs : List Str) (dest_path source : Str) (fs : FS),
        (copyFilesList dest_path source fs cs).2.1 = false →
        ∃ pre c post, cs = pre ++ c :: post ∧
          (copyFilesList dest_path source fs cs).2.2 =
            (pre ++ [c]).map fun n =>
              FSEvent.copyFile (pjoin source n) (pjoin dest_path n) := by
  refine ⟨?_, ?_, ?_, ?_, ?_, ?_, ?_, ?_, ?_⟩
  · exact removeTrees_sc
  · exact trashTrees_sc
  · exact copyTrees_sc
  · intro fuel fs path
    exact removeTrees_shrink fuel [path] fs
  · intro avail fuel fs path
    cases avail with
    | false => exact ShrinkFS_refl fs
    | true => exact trashTrees_shrink fuel [path] fs
  · intro fuel fs s d
    exact copyTrees_grow fuel [(s, d)] fs
  · intro fuel fs s d q h
    exact copyTrees_new fuel [(s, d)] fs q h
  · exact removeFilesList_fail_trace
  · exact copyFilesList_fail_trace

/-- A filesystem whose single file is locked, so removing it fails. -/
def fsLockedRm : FS where
  dirs := ["/a".data]
  files := [('/' :: 'a' :: "/f".data)]
  hiddenAttr := fun _ => false
  locked := fun q => decide (q = '/' :: 'a' :: "/f".data)
  trashed := []

/-- Witness for claim C8: after the first root fails, a later root in
the worklist is never attempted. -/
theorem claimC8_witness :
    removeTrees 1 fsLockedRm ("/a".data :: ["/b".data]) =
      removeTrees 1 fsLockedRm ["/a".data] :=
  claimC8.1 0 fsLockedRm "/a".data ["/b".data] (by decide)
